import Mathlib

/-!
Verification development for the XTC trajectory codec
(`src/package/src/xdrfile/xdrfile_xtc.h`).

The repository ships only the public C header: the functions `read_xtc`,
`write_xtc`, `read_xtc_numframes` and the bit-packing engine are declared
there but implemented elsewhere.  Following the specification document, the
missing implementations are modelled here as executable Lean definitions
(each marked `Modelled from the spec:`); the header constants
`XTC_SHORTHEADER_SIZE`, `XTC_SHORT_BYTESPERATOM` and `XTC_HEADER_SIZE` are
translated directly from the source header.  IEEE-754 `float` values are
modelled as rationals (`ℚ`); the primitive big-endian wire layer is external
to the system per the spec, so a wire item records its value and its byte
width rather than its bit pattern.
-/

set_option genSizeOfSpec false

set_option genInjectivity false

namespace XtcModel

/-! ## Bit-level primitives (spec §4.1, Bit-Packing Engine) -/

/-- Modelled from the spec: the most-significant-bit-first bit string of the
low `w` bits of `v` (spec §4.1: bits are appended "most-significant-bit
first").  The head of the list is the most significant of the `w` bits. -/
def natToBits : Nat → Nat → List Bool
  | 0, _ => []
  | w + 1, v => natToBits w (v / 2) ++ [decide (v % 2 = 1)]

/-- Value of a most-significant-bit-first bit string. -/
def bitsToNat (l : List Bool) : Nat :=
  l.foldl (fun a b => 2 * a + cond b 1 0) 0

/-- The eight bits of one byte, most significant first. -/
def byteToBits (b : Nat) : List Bool := natToBits 8 b

/-- All bits of a byte sequence, in stream order. -/
def bytesToBits (bs : List Nat) : List Bool := (bs.map byteToBits).flatten

/-- Chunk a bit string into bytes, zero-padding the final partial byte
(spec §4.1: "Byte alignment is flushed (zero-padded) only at defined frame
boundaries"). -/
def bitsToBytes : List Bool → List Nat
  | b0 :: b1 :: b2 :: b3 :: b4 :: b5 :: b6 :: b7 :: rest =>
      bitsToNat [b0, b1, b2, b3, b4, b5, b6, b7] :: bitsToBytes rest
  | [] => []
  | l => [bitsToNat (l ++ List.replicate (8 - l.length) false)]

theorem natToBits_length (w v : Nat) : (natToBits w v).length = w := by
  induction w generalizing v with
  | zero => rfl
  | succ w ih => simp [natToBits, ih]

theorem bitsToNat_foldl (l : List Bool) (a : Nat) :
    l.foldl (fun x b => 2 * x + cond b 1 0) a = a * 2 ^ l.length + bitsToNat l := by
  induction l generalizing a with
  | nil => simp [bitsToNat]
  | cons c t ih =>
      have hL : (c :: t).foldl (fun x b => 2 * x + cond b 1 0) a
          = t.foldl (fun x b => 2 * x + cond b 1 0) (2 * a + cond c 1 0) := rfl
      have hR : bitsToNat (c :: t)
          = t.foldl (fun x b => 2 * x + cond b 1 0) (2 * 0 + cond c 1 0) := rfl
      rw [hL, hR, ih, ih, List.length_cons]
      ring

theorem bitsToNat_cons (b : Bool) (l : List Bool) :
    bitsToNat (b :: l) = cond b 1 0 * 2 ^ l.length + bitsToNat l := by
  have h := bitsToNat_foldl l (2 * 0 + cond b 1 0)
  simpa [bitsToNat] using h

theorem bitsToNat_append (l1 l2 : List Bool) :
    bitsToNat (l1 ++ l2) = bitsToNat l1 * 2 ^ l2.length + bitsToNat l2 := by
  induction l1 with
  | nil => simp [bitsToNat]
  | cons b t ih =>
      simp only [List.cons_append, bitsToNat_cons, ih, List.length_append]
      ring

theorem bitsToNat_natToBits (w v : Nat) :
    bitsToNat (natToBits w v) = v % 2 ^ w := by
  induction w generalizing v with
  | zero =>
      rw [Nat.pow_zero, Nat.mod_one]
      rfl
  | succ w ih =>
      rw [natToBits, bitsToNat_append, ih]
      have h2 : (2:Nat) ^ (w + 1) = 2 * 2 ^ w := by ring
      have hdiv : v % (2 * 2 ^ w) / 2 = v / 2 % 2 ^ w :=
        Nat.mod_mul_right_div_self v 2 (2 ^ w)
      have hmod : v % (2 * 2 ^ w) % 2 = v % 2 := by
        have : (2:Nat) ∣ 2 * 2 ^ w := ⟨2 ^ w, rfl⟩
        exact Nat.mod_mod_of_dvd v this
      have hsplit : v % (2 * 2 ^ w) = 2 * (v % (2 * 2 ^ w) / 2) + v % (2 * 2 ^ w) % 2 := by
        omega
      rw [h2, hsplit, hdiv, hmod]
      rcases Nat.mod_two_eq_zero_or_one v with h | h
      · rw [h]
        show v / 2 % 2 ^ w * 2 + 0 = 2 * (v / 2 % 2 ^ w) + 0
        omega
      · rw [h]
        show v / 2 % 2 ^ w * 2 + 1 = 2 * (v / 2 % 2 ^ w) + 1
        omega

theorem natToBits_bitsToNat (m : List Bool) :
    natToBits m.length (bitsToNat m) = m := by
  induction m using List.reverseRecOn with
  | nil => rfl
  | append_singleton t b ih =>
      have hb1 : bitsToNat [b] = cond b 1 0 := by cases b <;> rfl
      have hv : bitsToNat (t ++ [b]) = 2 * bitsToNat t + cond b 1 0 := by
        rw [bitsToNat_append, hb1]
        show bitsToNat t * 2 + cond b 1 0 = 2 * bitsToNat t + cond b 1 0
        omega
      have hlen : (t ++ [b]).length = t.length + 1 := by
        rw [List.length_append]
        rfl
      rw [hlen, hv, natToBits]
      have hdiv : (2 * bitsToNat t + cond b 1 0) / 2 = bitsToNat t := by
        cases b
        · show (2 * bitsToNat t + 0) / 2 = bitsToNat t
          omega
        · show (2 * bitsToNat t + 1) / 2 = bitsToNat t
          omega
      have hmod : decide ((2 * bitsToNat t + cond b 1 0) % 2 = 1) = b := by
        cases b
        · exact decide_eq_false (show ¬ (2 * bitsToNat t + 0) % 2 = 1 by omega)
        · exact decide_eq_true (show (2 * bitsToNat t + 1) % 2 = 1 by omega)
      rw [hdiv, ih, hmod]

theorem bytesToBits_length (bs : List Nat) :
    (bytesToBits bs).length = 8 * bs.length := by
  induction bs with
  | nil => rfl
  | cons b t ih =>
      simp only [bytesToBits, List.map_cons, List.flatten_cons, List.length_append,
        List.length_cons] at *
      rw [ih]
      simp [byteToBits, natToBits_length]
      ring

theorem bitsToBytes_cons8 (a0 a1 a2 a3 a4 a5 a6 a7 : Bool) (t : List Bool) :
    bitsToBytes (a0 :: a1 :: a2 :: a3 :: a4 :: a5 :: a6 :: a7 :: t)
      = bitsToNat [a0, a1, a2, a3, a4, a5, a6, a7] :: bitsToBytes t := rfl

theorem bitsToBytes_short (l : List Bool) (h0 : l ≠ []) (h8 : l.length < 8) :
    bitsToBytes l = [bitsToNat (l ++ List.replicate (8 - l.length) false)] := by
  rcases l with _ | ⟨a0, _ | ⟨a1, _ | ⟨a2, _ | ⟨a3, _ | ⟨a4, _ | ⟨a5, _ | ⟨a6, _ | ⟨a7, t⟩⟩⟩⟩⟩⟩⟩⟩
  · exact absurd rfl h0
  · rfl
  · rfl
  · rfl
  · rfl
  · rfl
  · rfl
  · rfl
  · exfalso
    simp only [List.length_cons] at h8
    omega

theorem bytesToBits_bitsToBytes (l : List Bool) :
    ∃ k, bytesToBits (bitsToBytes l) = l ++ List.replicate k false := by
  suffices h : ∀ (n : Nat) (l : List Bool), l.length ≤ n →
      ∃ k, bytesToBits (bitsToBytes l) = l ++ List.replicate k false by
    exact h l.length l le_rfl
  intro n
  induction n with
  | zero =>
      intro l hl
      have h0 : l = [] := List.length_eq_zero.mp (Nat.le_zero.mp hl)
      subst h0
      exact ⟨0, rfl⟩
  | succ n ih =>
      intro l hl
      by_cases h0 : l = []
      · subst h0
        exact ⟨0, rfl⟩
      by_cases h8 : l.length < 8
      · rw [bitsToBytes_short l h0 h8]
        have hm : (l ++ List.replicate (8 - l.length) false).length = 8 := by
          simp only [List.length_append, List.length_replicate]
          omega
        have hrt := natToBits_bitsToNat (l ++ List.replicate (8 - l.length) false)
        rw [hm] at hrt
        refine ⟨8 - l.length, ?_⟩
        simp only [bytesToBits, List.map_cons, List.map_nil, List.flatten_cons,
          List.flatten_nil, List.append_nil, byteToBits]
        exact hrt
      · rcases l with _ | ⟨a0, _ | ⟨a1, _ | ⟨a2, _ | ⟨a3, _ | ⟨a4, _ | ⟨a5, _ | ⟨a6, _ | ⟨a7, rest⟩⟩⟩⟩⟩⟩⟩⟩
        · exact ⟨0, rfl⟩
        · exact (h8 (by simp only [List.length_cons, List.length_nil]; omega)).elim
        · exact (h8 (by simp only [List.length_cons, List.length_nil]; omega)).elim
        · exact (h8 (by simp only [List.length_cons, List.length_nil]; omega)).elim
        · exact (h8 (by simp only [List.length_cons, List.length_nil]; omega)).elim
        · exact (h8 (by simp only [List.length_cons, List.length_nil]; omega)).elim
        · exact (h8 (by simp only [List.length_cons, List.length_nil]; omega)).elim
        · exact (h8 (by simp only [List.length_cons, List.length_nil]; omega)).elim
        · have hrest : rest.length ≤ n := by
            simp only [List.length_cons] at hl
            omega
          obtain ⟨k, ihEq⟩ := ih rest hrest
          refine ⟨k, ?_⟩
          rw [bitsToBytes_cons8]
          have hbyte : byteToBits (bitsToNat [a0, a1, a2, a3, a4, a5, a6, a7])
              = [a0, a1, a2, a3, a4, a5, a6, a7] := by
            have h9 := natToBits_bitsToNat [a0, a1, a2, a3, a4, a5, a6, a7]
            simpa [byteToBits] using h9
          show byteToBits (bitsToNat [a0, a1, a2, a3, a4, a5, a6, a7])
              ++ bytesToBits (bitsToBytes rest) = _
          rw [hbyte, ihEq]
          simp

theorem length_bitsToBytes (l : List Bool) :
    l.length ≤ 8 * (bitsToBytes l).length := by
  obtain ⟨k, hEq⟩ := bytesToBits_bitsToBytes l
  have h1 := bytesToBits_length (bitsToBytes l)
  rw [hEq] at h1
  simp [List.length_append, List.length_replicate] at h1
  omega

theorem take_bytesToBits_bitsToBytes (l : List Bool) :
    (bytesToBits (bitsToBytes l)).take l.length = l := by
  obtain ⟨k, hEq⟩ := bytesToBits_bitsToBytes l
  rw [hEq, List.take_left]


/-! ## The Bit-Packing Engine (spec §4.1) -/

/-- Modelled from the spec: the BitBuffer data model (spec §3): "an
ownership-exclusive byte arena with a write/read cursor in bits (not
bytes)". `bytes` is the arena, `cursor` the bit cursor. -/
structure BitBuffer where
  bytes : List Nat
  cursor : Nat

/-- A fresh, empty bit buffer. -/
def emptyBuffer : BitBuffer := ⟨[], 0⟩

/-- The meaningful bits of a buffer: everything before the cursor. -/
def bufBits (buf : BitBuffer) : List Bool :=
  (bytesToBits buf.bytes).take buf.cursor

/-- Modelled from the spec: `packBits(buffer, value, width)` (spec §4.1)
"appends the low `width` bits of an unsigned integer to the buffer,
most-significant-bit first, crossing byte boundaries transparently",
advancing the bit cursor by `width`.  The final partial byte is kept
zero-padded, matching the flush discipline of §4.1. -/
def packBits (buf : BitBuffer) (value width : Nat) : BitBuffer :=
  ⟨bitsToBytes (bufBits buf ++ natToBits width value), buf.cursor + width⟩

/-- Error kinds of spec §7. -/
inductive XtcErr where
  | malformedFrame
  | truncatedFrame
  | bufferExhausted
  | atomCountMismatch
  | ioFailure
  | invalidPrecision

/-- Modelled from the spec: `unpackBits(buffer, width)` (spec §4.1)
"consumes and returns the next `width` bits", advancing the bit cursor;
"fails with `BufferExhausted` on read past available bytes". -/
def unpackBits (buf : BitBuffer) (width : Nat) : Except XtcErr (Nat × BitBuffer) :=
  if buf.cursor + width ≤ 8 * buf.bytes.length then
    .ok (bitsToNat (((bytesToBits buf.bytes).drop buf.cursor).take width),
         ⟨buf.bytes, buf.cursor + width⟩)
  else .error .bufferExhausted

/-- Pack a sequence of (width, value) fields in order. -/
def packList (buf : BitBuffer) : List (Nat × Nat) → BitBuffer
  | [] => buf
  | p :: rest => packList (packBits buf p.2 p.1) rest

/-- Unpack a sequence of field widths in order. -/
def unpackList : BitBuffer → List Nat → Except XtcErr (List Nat × BitBuffer)
  | buf, [] => .ok ([], buf)
  | buf, w :: rest =>
      match unpackBits buf w with
      | .error e => .error e
      | .ok (v, buf2) =>
          match unpackList buf2 rest with
          | .error e => .error e
          | .ok (vs, buf3) => .ok (v :: vs, buf3)

/-- Well-formed write buffer: the arena is exactly the byte-chunking of the
meaningful bits, and the cursor lies inside the arena. -/
def BufWF (buf : BitBuffer) : Prop :=
  buf.bytes = bitsToBytes (bufBits buf) ∧ buf.cursor ≤ 8 * buf.bytes.length

theorem bufWF_empty : BufWF emptyBuffer := by
  constructor <;> rfl

theorem bufBits_length (buf : BitBuffer) (h : buf.cursor ≤ 8 * buf.bytes.length) :
    (bufBits buf).length = buf.cursor := by
  simp [bufBits, List.length_take, bytesToBits_length]
  omega

theorem packBits_cursor (buf : BitBuffer) (v w : Nat) :
    (packBits buf v w).cursor = buf.cursor + w := rfl

theorem bufBits_packBits (buf : BitBuffer) (h : buf.cursor ≤ 8 * buf.bytes.length)
    (v w : Nat) :
    bufBits (packBits buf v w) = bufBits buf ++ natToBits w v := by
  have hlen : (bufBits buf ++ natToBits w v).length = buf.cursor + w := by
    simp [List.length_append, bufBits_length buf h, natToBits_length]
  show (bytesToBits (bitsToBytes (bufBits buf ++ natToBits w v))).take (buf.cursor + w) = _
  rw [← hlen]
  exact take_bytesToBits_bitsToBytes (bufBits buf ++ natToBits w v)

theorem bufWF_packBits (buf : BitBuffer) (h : BufWF buf) (v w : Nat) :
    BufWF (packBits buf v w) := by
  obtain ⟨hchunk, hcur⟩ := h
  constructor
  · show bitsToBytes (bufBits buf ++ natToBits w v) = bitsToBytes (bufBits (packBits buf v w))
    rw [bufBits_packBits buf hcur v w]
  · show buf.cursor + w ≤ 8 * (bitsToBytes (bufBits buf ++ natToBits w v)).length
    have h1 := length_bitsToBytes (bufBits buf ++ natToBits w v)
    have h2 : (bufBits buf ++ natToBits w v).length = buf.cursor + w := by
      simp [List.length_append, bufBits_length buf hcur, natToBits_length]
    omega

theorem packBits_zero_width (buf : BitBuffer) (h : BufWF buf) (v : Nat) :
    packBits buf v 0 = buf := by
  obtain ⟨hchunk, hcur⟩ := h
  show (⟨bitsToBytes (bufBits buf ++ natToBits 0 v), buf.cursor + 0⟩ : BitBuffer) = buf
  have h1 : natToBits 0 v = [] := rfl
  rw [h1, List.append_nil, ← hchunk, Nat.add_zero]

theorem unpackBits_exhausted (buf : BitBuffer) (w : Nat)
    (h : 8 * buf.bytes.length < buf.cursor + w) :
    unpackBits buf w = .error .bufferExhausted := by
  rw [unpackBits, if_neg]
  omega

theorem unpackBits_packBits (buf : BitBuffer) (h : BufWF buf) (v w : Nat) :
    unpackBits ⟨(packBits buf v w).bytes, buf.cursor⟩ w
      = .ok (v % 2 ^ w, ⟨(packBits buf v w).bytes, buf.cursor + w⟩) := by
  obtain ⟨hchunk, hcur⟩ := h
  obtain ⟨k, hk⟩ := bytesToBits_bitsToBytes (bufBits buf ++ natToBits w v)
  have hpre : (bufBits buf).length = buf.cursor := bufBits_length buf hcur
  have hw : (natToBits w v).length = w := natToBits_length w v
  have hbits : bytesToBits (packBits buf v w).bytes
      = bufBits buf ++ (natToBits w v ++ List.replicate k false) := by
    show bytesToBits (bitsToBytes (bufBits buf ++ natToBits w v)) = _
    rw [hk, List.append_assoc]
  have htot : 8 * (packBits buf v w).bytes.length = buf.cursor + w + k := by
    have h1 := bytesToBits_length (packBits buf v w).bytes
    rw [hbits] at h1
    simp only [List.length_append, List.length_replicate, hpre, hw] at h1
    omega
  rw [unpackBits]
  rw [if_pos (show (⟨(packBits buf v w).bytes, buf.cursor⟩ : BitBuffer).cursor + w
      ≤ 8 * (⟨(packBits buf v w).bytes, buf.cursor⟩ : BitBuffer).bytes.length by
    show buf.cursor + w ≤ 8 * (packBits buf v w).bytes.length
    omega)]
  have hdrop : (bytesToBits (packBits buf v w).bytes).drop buf.cursor
      = natToBits w v ++ List.replicate k false := by
    rw [hbits, ← hpre, List.drop_left]
  have htake : ((bytesToBits (packBits buf v w).bytes).drop buf.cursor).take w
      = natToBits w v := by
    rw [hdrop]
    have h3 := List.take_left (natToBits w v) (List.replicate k false)
    rwa [natToBits_length] at h3
  rw [htake, bitsToNat_natToBits]

/-- The concatenated bit image of a list of (width, value) fields. -/
def flatPairs (ps : List (Nat × Nat)) : List Bool :=
  (ps.map fun p => natToBits p.1 p.2).flatten

/-- Total bit width of a list of (width, value) fields. -/
def sumWidths (ps : List (Nat × Nat)) : Nat := (ps.map Prod.fst).sum

theorem flatPairs_cons (p : Nat × Nat) (ps : List (Nat × Nat)) :
    flatPairs (p :: ps) = natToBits p.1 p.2 ++ flatPairs ps := by
  simp [flatPairs]

theorem sumWidths_cons (p : Nat × Nat) (ps : List (Nat × Nat)) :
    sumWidths (p :: ps) = p.1 + sumWidths ps := by
  simp [sumWidths]

theorem unpackList_spec (ps : List (Nat × Nat)) (B : List Nat) (pre suf : List Bool)
    (hB : bytesToBits B = pre ++ (flatPairs ps ++ suf)) :
    unpackList ⟨B, pre.length⟩ (ps.map Prod.fst)
      = .ok (ps.map (fun p => p.2 % 2 ^ p.1), ⟨B, pre.length + sumWidths ps⟩) := by
  induction ps generalizing pre with
  | nil =>
      simp only [List.map_nil, unpackList, sumWidths, List.sum_nil, Nat.add_zero]
  | cons p rest ih =>
      have htot : 8 * B.length = pre.length + (p.1 + ((flatPairs rest).length + suf.length)) := by
        have h1 := bytesToBits_length B
        rw [hB] at h1
        simp only [flatPairs_cons, List.length_append, natToBits_length] at h1
        omega
      have hstep : unpackBits ⟨B, pre.length⟩ p.1
          = .ok (p.2 % 2 ^ p.1, ⟨B, pre.length + p.1⟩) := by
        rw [unpackBits]
        rw [if_pos (by simp only []; omega)]
        have hdrop : (bytesToBits B).drop pre.length
            = natToBits p.1 p.2 ++ (flatPairs rest ++ suf) := by
          rw [hB, List.drop_left, flatPairs_cons, List.append_assoc]
        have htake : ((bytesToBits B).drop pre.length).take p.1 = natToBits p.1 p.2 := by
          rw [hdrop]
          have h3 := List.take_left (natToBits p.1 p.2) (flatPairs rest ++ suf)
          rwa [natToBits_length] at h3
        rw [htake, bitsToNat_natToBits]
      have hB2 : bytesToBits B = (pre ++ natToBits p.1 p.2) ++ (flatPairs rest ++ suf) := by
        rw [hB, flatPairs_cons]
        simp [List.append_assoc]
      have ih2 := ih (pre ++ natToBits p.1 p.2) hB2
      have hlen2 : (pre ++ natToBits p.1 p.2).length = pre.length + p.1 := by
        simp [List.length_append, natToBits_length]
      rw [hlen2] at ih2
      simp only [List.map_cons, unpackList, hstep, ih2, sumWidths_cons]
      have harith : pre.length + p.1 + sumWidths rest = pre.length + (p.1 + sumWidths rest) := by
        omega
      rw [harith]

theorem packList_spec (ps : List (Nat × Nat)) (buf : BitBuffer) (h : BufWF buf) :
    BufWF (packList buf ps)
      ∧ bufBits (packList buf ps) = bufBits buf ++ flatPairs ps
      ∧ (packList buf ps).cursor = buf.cursor + sumWidths ps := by
  induction ps generalizing buf with
  | nil =>
      refine ⟨h, ?_, ?_⟩ <;> simp [packList, flatPairs, sumWidths]
  | cons p rest ih =>
      have hwf2 := bufWF_packBits buf h p.2 p.1
      obtain ⟨ih1, ih2, ih3⟩ := ih (packBits buf p.2 p.1) hwf2
      refine ⟨ih1, ?_, ?_⟩
      · show bufBits (packList (packBits buf p.2 p.1) rest) = _
        rw [ih2, bufBits_packBits buf h.2 p.2 p.1, flatPairs_cons, List.append_assoc]
      · show (packList (packBits buf p.2 p.1) rest).cursor = _
        rw [ih3, packBits_cursor, sumWidths_cons]
        omega

theorem unpackList_packList (ps : List (Nat × Nat)) :
    unpackList ⟨(packList emptyBuffer ps).bytes, 0⟩ (ps.map Prod.fst)
      = .ok (ps.map (fun p => p.2 % 2 ^ p.1),
             ⟨(packList emptyBuffer ps).bytes, sumWidths ps⟩) := by
  obtain ⟨hwf, hbits, hcur⟩ := packList_spec ps emptyBuffer bufWF_empty
  have hempty : bufBits emptyBuffer = [] := rfl
  rw [hempty, List.nil_append] at hbits
  have hcur0 : (packList emptyBuffer ps).cursor = sumWidths ps := by
    rw [hcur]
    exact Nat.zero_add (sumWidths ps)
  have h1 : (bytesToBits (packList emptyBuffer ps).bytes).take (sumWidths ps) = flatPairs ps := by
    rw [← hcur0, ← hbits]
    rfl
  have hB : bytesToBits (packList emptyBuffer ps).bytes
      = [] ++ (flatPairs ps ++ (bytesToBits (packList emptyBuffer ps).bytes).drop (sumWidths ps)) := by
    rw [List.nil_append, ← h1, List.take_append_drop]
  have hmain := unpackList_spec ps (packList emptyBuffer ps).bytes [] _ hB
  simpa using hmain

/-! ## Header constants, translated from the source header `xdrfile_xtc.h` -/

/-- Coordinates are 3-vectors and the box is a DIM×DIM matrix (spec §3);
`DIM` itself lives in the external `xdrfile.h` layer and equals 3. -/
def DIM : Nat := 3

/-- Translated from `xdrfile_xtc.h` line 45: "XTC header fields until coord
floats: only for trajectories of less than 10 atoms!  magic natoms step time
DIM*DIM_box_vecs natoms". -/
def XTC_SHORTHEADER_SIZE : Nat := 20 + DIM * DIM * 4

/-- Translated from `xdrfile_xtc.h` line 47: "Short XTCs store each
coordinate as a 32-bit float." -/
def XTC_SHORT_BYTESPERATOM : Nat := 12

/-- Translated from `xdrfile_xtc.h` line 50: "XTC header fields until frame
bytes: only for trajectories of more than 9 atoms!  magic natoms step time
DIM*DIM_box_vecs natoms prec DIM_min_xyz DIM_max_xyz smallidx". -/
def XTC_HEADER_SIZE : Nat := DIM * DIM * 4 + DIM * 2 + 46

/-! ## Wire items and frames -/

/-- Modelled from the spec: the fixed format tag of the frame header
(spec §3 "Magic/Header fields: fixed-format tag (format version marker)").
The underlying primitive layer writes it as a big-endian i32. -/
def xtcMagic : Int := 1995

/-- Modelled from the spec: one field on the wire (spec §6 binary layout).
The big-endian primitive encode/decode layer is external to the system
(spec §1), so an item records a field's value and kind; `i32` and `f32`
fields occupy 4 bytes each, a raw byte run occupies one byte per element. -/
inductive WireItem where
  | i32 (v : Int)
  | f32 (v : ℚ)
  | bytes (bs : List Nat)

/-- Byte width of one wire item (spec §6: all scalar fields are 4 bytes). -/
def WireItem.byteSize : WireItem → Nat
  | .i32 _ => 4
  | .f32 _ => 4
  | .bytes bs => bs.length

/-- Total byte length of a run of wire items. -/
def itemsByteLen (items : List WireItem) : Nat :=
  (items.map WireItem.byteSize).sum

theorem itemsByteLen_append (l1 l2 : List WireItem) :
    itemsByteLen (l1 ++ l2) = itemsByteLen l1 + itemsByteLen l2 := by
  simp [itemsByteLen]

/-- Modelled from the spec: the Frame data model (spec §3): step, time,
3×3 box, coordinates and precision; the atom count is the length of the
coordinate list (invariant "atomCount == coordinates.length").  Floats are
modelled as rationals. -/
structure Frame where
  step : Int
  time : ℚ
  box : List ℚ
  coords : List (ℚ × ℚ × ℚ)
  precision : ℚ

/-- Atom count of a frame. -/
def Frame.natoms (f : Frame) : Nat := f.coords.length

/-! ## Coordinate compressor (spec §4.2) -/

/-- Round a rational to the nearest integer (ties away from the floor),
written with integer division on numerator and denominator: for a rational
`q = num/den` the nearest integer is `⌊(2*num + den) / (2*den)⌋`. -/
def roundQ (q : ℚ) : Int := (q.num * 2 + (q.den : Int)) / ((q.den * 2 : Nat) : Int)

/-- Modelled from the spec: quantization (spec §4.2): "multiply each
coordinate by `precision` and round to the nearest integer". -/
def quant (p : ℚ) (x : ℚ) : Int := roundQ (x * p)

/-- Fuel-driven helper for `bitWidth` (structural recursion so that the
kernel can evaluate it). -/
def bitWidthAux : Nat → Nat → Nat
  | 0, _ => 0
  | _ + 1, 0 => 0
  | fuel + 1, n + 1 => bitWidthAux fuel ((n + 1) / 2) + 1

/-- Modelled from the spec: the minimal-bit-width lookup (spec §4.2): the
"minimum bit width needed to represent the box extent per axis", i.e. the
smallest `w` with `n < 2 ^ w`. -/
def bitWidth (n : Nat) : Nat := bitWidthAux n n

theorem bitWidthAux_spec (fuel n : Nat) (h : n ≤ fuel) : n < 2 ^ bitWidthAux fuel n := by
  induction fuel generalizing n with
  | zero =>
      have h0 : n = 0 := Nat.le_zero.mp h
      subst h0
      exact Nat.one_pos
  | succ fuel ih =>
      match n with
      | 0 => exact Nat.one_pos
      | m + 1 =>
          have hrec : (m + 1) / 2 ≤ fuel := by omega
          have hih := ih ((m + 1) / 2) hrec
          show m + 1 < 2 ^ (bitWidthAux fuel ((m + 1) / 2) + 1)
          rw [pow_succ]
          omega

theorem lt_two_pow_bitWidth (n : Nat) : n < 2 ^ bitWidth n :=
  bitWidthAux_spec n n le_rfl

/-- Minimum of a list of integers (0 for the empty list; the compressor
only applies it to nonempty coordinate lists). -/
def listMinI : List Int → Int
  | [] => 0
  | x :: xs => xs.foldl min x

/-- Maximum of a list of integers (0 for the empty list). -/
def listMaxI : List Int → Int
  | [] => 0
  | x :: xs => xs.foldl max x

theorem foldl_min_le_self (xs : List Int) (x : Int) : xs.foldl min x ≤ x := by
  induction xs generalizing x with
  | nil => exact le_rfl
  | cons y ys ih =>
      calc ys.foldl min (min x y) ≤ min x y := ih (min x y)
        _ ≤ x := min_le_left x y

theorem foldl_min_le_mem (xs : List Int) (x a : Int) (ha : a ∈ xs) :
    xs.foldl min x ≤ a := by
  induction xs generalizing x with
  | nil => cases ha
  | cons y ys ih =>
      rcases List.mem_cons.mp ha with h | h
      · subst h
        calc ys.foldl min (min x a) ≤ min x a := foldl_min_le_self ys (min x a)
          _ ≤ a := min_le_right x a
      · exact ih (min x y) h

theorem le_foldl_max_self (xs : List Int) (x : Int) : x ≤ xs.foldl max x := by
  induction xs generalizing x with
  | nil => exact le_rfl
  | cons y ys ih =>
      calc x ≤ max x y := le_max_left x y
        _ ≤ ys.foldl max (max x y) := ih (max x y)

theorem mem_le_foldl_max (xs : List Int) (x a : Int) (ha : a ∈ xs) :
    a ≤ xs.foldl max x := by
  induction xs generalizing x with
  | nil => cases ha
  | cons y ys ih =>
      rcases List.mem_cons.mp ha with h | h
      · subst h
        calc a ≤ max x a := le_max_right x a
          _ ≤ ys.foldl max (max x a) := le_foldl_max_self ys (max x a)
      · exact ih (max x y) h

theorem listMinI_le (l : List Int) (a : Int) (ha : a ∈ l) : listMinI l ≤ a := by
  match l, ha with
  | x :: xs, ha =>
      rcases List.mem_cons.mp ha with h | h
      · subst h
        exact foldl_min_le_self xs a
      · exact foldl_min_le_mem xs x a h

theorem le_listMaxI (l : List Int) (a : Int) (ha : a ∈ l) : a ≤ listMaxI l := by
  match l, ha with
  | x :: xs, ha =>
      rcases List.mem_cons.mp ha with h | h
      · subst h
        exact le_foldl_max_self xs a
      · exact mem_le_foldl_max xs x a h

/-- Per-axis minima of the quantized coordinates (spec §4.2: "track running
min/max per axis across all atoms to derive an integer bounding box"). -/
def frameMins (p : ℚ) (coords : List (ℚ × ℚ × ℚ)) : Int × Int × Int :=
  (listMinI (coords.map fun c => quant p c.1),
   listMinI (coords.map fun c => quant p c.2.1),
   listMinI (coords.map fun c => quant p c.2.2))

/-- Per-axis maxima of the quantized coordinates. -/
def frameMaxs (p : ℚ) (coords : List (ℚ × ℚ × ℚ)) : Int × Int × Int :=
  (listMaxI (coords.map fun c => quant p c.1),
   listMaxI (coords.map fun c => quant p c.2.1),
   listMaxI (coords.map fun c => quant p c.2.2))

/-- Per-axis bit widths derived from the integer bounding box recorded in
the header; decode recomputes them from the transmitted min/max extents
exactly as encode derived them (spec §4.2). -/
def widthsFromExtents (mins maxs : Int × Int × Int) : Nat × Nat × Nat :=
  (bitWidth (maxs.1 - mins.1).toNat,
   bitWidth (maxs.2.1 - mins.2.1).toNat,
   bitWidth (maxs.2.2 - mins.2.2).toNat)

/-- Modelled from the spec: the small-width index recorded in the long
header (spec §3/§4.2 "bit-width table index (small index)"); the model
collapses the adaptive run machinery to the fixed bounding-box widths, and
records the smallest per-axis width as the initial index. -/
def frameSmallIdx (ws : Nat × Nat × Nat) : Nat := min ws.1 (min ws.2.1 ws.2.2)

/-- The (width, value) fields of one atom: its three quantized coordinates
re-based at the per-axis minimum. -/
def atomPairs (p : ℚ) (mins : Int × Int × Int) (ws : Nat × Nat × Nat)
    (c : ℚ × ℚ × ℚ) : List (Nat × Nat) :=
  [(ws.1, (quant p c.1 - mins.1).toNat),
   (ws.2.1, (quant p c.2.1 - mins.2.1).toNat),
   (ws.2.2, (quant p c.2.2 - mins.2.2).toNat)]

/-- All (width, value) fields of a frame, atoms in order (spec §4.2: "Atoms
are encoded in consecutive triples").  The spec's adaptive outlier escape
only redistributes widths inside the recorded bounds and its exact wire
encoding is left unspecified, so the model packs every atom at the
bounding-box width. -/
def framePairs (p : ℚ) (mins : Int × Int × Int) (ws : Nat × Nat × Nat)
    (coords : List (ℚ × ℚ × ℚ)) : List (Nat × Nat) :=
  (coords.map (atomPairs p mins ws)).flatten

/-- Modelled from the spec: the compressed coordinate payload of one frame,
a byte-aligned zero-flushed bitstream (spec §4.1-4.2). -/
def compressPayload (p : ℚ) (coords : List (ℚ × ℚ × ℚ)) : List Nat :=
  (packList emptyBuffer
    (framePairs p (frameMins p coords)
      (widthsFromExtents (frameMins p coords) (frameMaxs p coords)) coords)).bytes

/-- The wire fields shared by both paths (spec §6: magic, atomCount, step,
time, box, atomCount repeated — the legacy duplicate of §9). -/
def headerItems (natoms : Nat) (step : Int) (time : ℚ) (box : List ℚ) : List WireItem :=
  [.i32 xtcMagic, .i32 (natoms : Int), .i32 step, .f32 time]
    ++ box.map WireItem.f32 ++ [.i32 (natoms : Int)]

/-- The raw-float coordinate items of the short path. -/
def shortCoordItems (coords : List (ℚ × ℚ × ℚ)) : List WireItem :=
  (coords.map fun c => [WireItem.f32 c.1, WireItem.f32 c.2.1, WireItem.f32 c.2.2]).flatten

/-- A payload byte run as wire items: zero bytes on the wire contribute no
item at all. -/
def payloadItems (payload : List Nat) : List WireItem :=
  if payload.isEmpty then [] else [.bytes payload]

/-- The long-path items that follow the shared header fields (spec §6:
precision, integer min extent, integer max extent, small-width index,
compressed payload length in bytes, compressed payload). -/
def longTailItems (prec : ℚ) (mins maxs : Int × Int × Int) (smallidx : Nat)
    (payload : List Nat) : List WireItem :=
  [.f32 prec,
   .i32 mins.1, .i32 mins.2.1, .i32 mins.2.2,
   .i32 maxs.1, .i32 maxs.2.1, .i32 maxs.2.2,
   .i32 (smallidx : Int), .i32 (payload.length : Int)] ++ payloadItems payload

/-- Modelled from the spec: `writeFrame` / `write_xtc` (spec §4.3, §6):
select the short uncompressed path when the atom count is below 10,
otherwise the compressed path; reject a non-positive precision on the
compressed path with `InvalidPrecision` (spec §7). -/
def writeFrame (f : Frame) : Except XtcErr (List WireItem) :=
  if f.coords.length < 10 then
    .ok (headerItems f.coords.length f.step f.time f.box ++ shortCoordItems f.coords)
  else if f.precision ≤ 0 then .error .invalidPrecision
  else
    .ok (headerItems f.coords.length f.step f.time f.box
      ++ longTailItems f.precision (frameMins f.precision f.coords)
          (frameMaxs f.precision f.coords)
          (frameSmallIdx (widthsFromExtents (frameMins f.precision f.coords)
            (frameMaxs f.precision f.coords)))
          (compressPayload f.precision f.coords))

/-! ## Field readers (decoder side) -/

/-- Read one i32 field: the stream ending is a truncation, any other field
kind in its place is a malformed frame. -/
def rdI32 : List WireItem → Except XtcErr (Int × List WireItem)
  | .i32 v :: rest => .ok (v, rest)
  | [] => .error .truncatedFrame
  | _ => .error .malformedFrame

/-- Read one f32 field. -/
def rdF32 : List WireItem → Except XtcErr (ℚ × List WireItem)
  | .f32 v :: rest => .ok (v, rest)
  | [] => .error .truncatedFrame
  | _ => .error .malformedFrame

/-- Read `n` consecutive f32 fields. -/
def rdF32s : Nat → List WireItem → Except XtcErr (List ℚ × List WireItem)
  | 0, items => .ok ([], items)
  | n + 1, items =>
      match rdF32 items with
      | .error e => .error e
      | .ok (v, rest) =>
          match rdF32s n rest with
          | .error e => .error e
          | .ok (vs, rest2) => .ok (v :: vs, rest2)

/-- Read a declared-length byte payload; fewer available bytes than the
declared length is a truncated frame (spec §7 TruncatedFrame: "declared
length exceeds remaining bytes"). -/
def rdPayload (len : Nat) : List WireItem → Except XtcErr (List Nat × List WireItem)
  | .bytes bs :: rest =>
      if h : len < bs.length then .ok (bs.take len, .bytes (bs.drop len) :: rest)
      else if bs.length = len then .ok (bs, rest)
      else .error .truncatedFrame
  | [] => if len = 0 then .ok ([], []) else .error .truncatedFrame
  | items => if len = 0 then .ok ([], items) else .error .malformedFrame

/-! ## Coordinate decompression (spec §4.2, decode direction) -/

/-- The width pattern of `n` atoms: the three per-axis widths, repeated. -/
def widthsList (ws : Nat × Nat × Nat) : Nat → List Nat
  | 0 => []
  | n + 1 => ws.1 :: ws.2.1 :: ws.2.2 :: widthsList ws n

/-- Group a flat list of unpacked values into coordinate triples. -/
def regroup3 : List Nat → List (Nat × Nat × Nat)
  | a :: b :: c :: rest => (a, b, c) :: regroup3 rest
  | _ => []

/-- Group a flat list of floats into coordinate triples. -/
def regroupQ3 : List ℚ → List (ℚ × ℚ × ℚ)
  | a :: b :: c :: rest => (a, b, c) :: regroupQ3 rest
  | _ => []

/-- Modelled from the spec: dequantization (spec §4.2): "reconstruct
integer coordinates, and divide by `precision` to recover floats". -/
def dequant (p : ℚ) (mins : Int × Int × Int) (t : Nat × Nat × Nat) : ℚ × ℚ × ℚ :=
  (((mins.1 + (t.1 : Int) : Int) : ℚ) / p,
   ((mins.2.1 + (t.2.1 : Int) : Int) : ℚ) / p,
   ((mins.2.2 + (t.2.2 : Int) : Int) : ℚ) / p)

/-- Modelled from the spec: decode the compressed payload (spec §4.2):
"read the bounding box and initial width, then .. reconstruct integer
coordinates, and divide by `precision`"; the per-axis widths are recomputed
from the transmitted extents exactly as the encoder derived them. -/
def decompressCoords (p : ℚ) (mins maxs : Int × Int × Int) (natoms : Nat)
    (payload : List Nat) : Except XtcErr (List (ℚ × ℚ × ℚ)) :=
  match unpackList ⟨payload, 0⟩ (widthsList (widthsFromExtents mins maxs) natoms) with
  | .error e => .error e
  | .ok (vals, _) => .ok ((regroup3 vals).map (dequant p mins))

/-! ## Frame decoder (spec §4.3, §6) -/

/-- Modelled from the spec: `readFrame` / `read_xtc` (spec §4.3, §6, §7):
parse one frame off the front of the stream.  The magic tag is validated
first and a mismatch is `MalformedFrame` before any further field is
examined (spec §4.3); the two atom-count copies are both read and must
match (`MalformedFrame` otherwise, spec §9); the frame's atom count must
equal the caller's expected atom count (`AtomCountMismatch` otherwise,
spec §7); atom counts below 10 take the short raw-float path, the rest the
compressed path (spec §4.2-4.3).  The short path leaves precision 0
(precision is only meaningful on the compressed path, spec §3). -/
def readFrame (expectedAtoms : Nat) (items : List WireItem) :
    Except XtcErr (Frame × List WireItem) :=
  match rdI32 items with
  | .error e => .error e
  | .ok (m, r1) =>
  if m = xtcMagic then
    match rdI32 r1 with
    | .error e => .error e
    | .ok (n, r2) =>
    match rdI32 r2 with
    | .error e => .error e
    | .ok (stepv, r3) =>
    match rdF32 r3 with
    | .error e => .error e
    | .ok (timev, r4) =>
    match rdF32s (DIM * DIM) r4 with
    | .error e => .error e
    | .ok (boxv, r5) =>
    match rdI32 r5 with
    | .error e => .error e
    | .ok (n2, r6) =>
    if n2 = n then
      if n = (expectedAtoms : Int) then
        if n < 10 then
          match rdF32s (DIM * expectedAtoms) r6 with
          | .error e => .error e
          | .ok (cs, r7) => .ok (⟨stepv, timev, boxv, regroupQ3 cs, 0⟩, r7)
        else
          match rdF32 r6 with
          | .error e => .error e
          | .ok (prec, r7) =>
          match rdI32 r7 with
          | .error e => .error e
          | .ok (minx, r8) =>
          match rdI32 r8 with
          | .error e => .error e
          | .ok (miny, r9) =>
          match rdI32 r9 with
          | .error e => .error e
          | .ok (minz, r10) =>
          match rdI32 r10 with
          | .error e => .error e
          | .ok (maxx, r11) =>
          match rdI32 r11 with
          | .error e => .error e
          | .ok (maxy, r12) =>
          match rdI32 r12 with
          | .error e => .error e
          | .ok (maxz, r13) =>
          match rdI32 r13 with
          | .error e => .error e
          | .ok (_, r14) =>
          match rdI32 r14 with
          | .error e => .error e
          | .ok (lenv, r15) =>
          if lenv < 0 then .error .malformedFrame
          else
            match rdPayload lenv.toNat r15 with
            | .error e => .error e
            | .ok (payload, r16) =>
            match decompressCoords prec (minx, miny, minz) (maxx, maxy, maxz)
                expectedAtoms payload with
            | .error e => .error e
            | .ok coords => .ok (⟨stepv, timev, boxv, coords, prec⟩, r16)
      else .error .atomCountMismatch
    else .error .malformedFrame
  else .error .malformedFrame

/-! ## Frame index scanner (spec §4.4) -/

/-- Modelled from the spec: seek forward `k` bytes in the stream (spec
§4.4: "seek forward by that length rather than fully decoding
coordinates").  Running off the end of the file is a truncation; a seek
that would stop inside a scalar field cannot arise on frame-aligned files
and is reported as a malformed frame. -/
def skipBytes (k : Nat) (items : List WireItem) : Except XtcErr (List WireItem) :=
  if k = 0 then .ok items
  else match items with
  | [] => .error .truncatedFrame
  | .i32 _ :: rest => if 4 ≤ k then skipBytes (k - 4) rest else .error .malformedFrame
  | .f32 _ :: rest => if 4 ≤ k then skipBytes (k - 4) rest else .error .malformedFrame
  | .bytes bs :: rest =>
      if bs.length ≤ k then skipBytes (k - bs.length) rest
      else .ok (.bytes (bs.drop k) :: rest)

/-- Atom-count guard of the scanner (spec §4.4): the atom count is read
from the first frame and every later frame must declare the same count. -/
def guardAtoms (expected : Option Int) (n : Int) : Except XtcErr Unit :=
  match expected with
  | some n0 => if n = n0 then .ok () else .error .atomCountMismatch
  | none => .ok ()

/-- Modelled from the spec: scan one frame header (spec §4.4): "parse just
enough of the frame header to learn the frame's total byte length (for the
long path this is the explicit byte-length field plus fixed header size;
for the short path it is computable from atom count and the fixed-size
raw-float layout), then seek forward by that length".  Returns the declared
atom count, the frame's total byte length, and the rest of the stream. -/
def scanFrameHeader (expected : Option Int) (items : List WireItem) :
    Except XtcErr (Int × Nat × List WireItem) :=
  match rdI32 items with
  | .error e => .error e
  | .ok (m, r1) =>
  if m = xtcMagic then
    match rdI32 r1 with
    | .error e => .error e
    | .ok (n, r2) =>
    if n < 0 then .error .malformedFrame
    else
      match guardAtoms expected n with
      | .error e => .error e
      | .ok _ =>
        if n < 10 then
          match skipBytes (XTC_SHORTHEADER_SIZE - 8 + XTC_SHORT_BYTESPERATOM * n.toNat) r2 with
          | .error e => .error e
          | .ok rest => .ok (n, XTC_SHORTHEADER_SIZE + XTC_SHORT_BYTESPERATOM * n.toNat, rest)
        else
          match skipBytes (XTC_HEADER_SIZE - 8) r2 with
          | .error e => .error e
          | .ok r3 =>
          match rdI32 r3 with
          | .error e => .error e
          | .ok (lenv, r4) =>
          if lenv < 0 then .error .malformedFrame
          else
            match skipBytes lenv.toNat r4 with
            | .error e => .error e
            | .ok rest => .ok (n, XTC_HEADER_SIZE + 4 + lenv.toNat, rest)
  else .error .malformedFrame

/-- Fuel-driven scanning loop (each step consumes at least one item, so
`items.length` fuel always suffices; fuel exhaustion reports `IOFailure`
and is unreachable from `scanFrames`). -/
def scanGo : Nat → Option Int → Nat → List WireItem → Except XtcErr (List Nat)
  | _, _, _, [] => .ok []
  | 0, _, _, _ :: _ => .error .ioFailure
  | fuel + 1, expected, pos, items =>
      match scanFrameHeader expected items with
      | .error e => .error e
      | .ok (n, len, rest) =>
          match scanGo fuel (some n) (pos + len) rest with
          | .error e => .error e
          | .ok offs => .ok (pos :: offs)

/-- Modelled from the spec: `scanFrames` / `read_xtc_numframes`
(spec §4.4): walk the file header by header, recording the byte offset of
every frame without decoding coordinate payloads; stops cleanly at
end-of-file, fails on a truncated trailing frame or an atom-count change. -/
def scanFrames (items : List WireItem) : Except XtcErr (List Nat) :=
  scanGo items.length none 0 items

/-! ## Whole-file helpers -/

/-- The encoded items of a frame, as a total function (equal to the
successful result of `writeFrame`). -/
def encItems (f : Frame) : List WireItem :=
  if f.coords.length < 10 then
    headerItems f.coords.length f.step f.time f.box ++ shortCoordItems f.coords
  else
    headerItems f.coords.length f.step f.time f.box
      ++ longTailItems f.precision (frameMins f.precision f.coords)
          (frameMaxs f.precision f.coords)
          (frameSmallIdx (widthsFromExtents (frameMins f.precision f.coords)
            (frameMaxs f.precision f.coords)))
          (compressPayload f.precision f.coords)

/-- Total byte length of a frame on the wire, computed from header data
alone: the short-path formula and the long-path formula of spec §4.4. -/
def frameByteLen (f : Frame) : Nat :=
  if f.coords.length < 10 then
    XTC_SHORTHEADER_SIZE + XTC_SHORT_BYTESPERATOM * f.coords.length
  else
    XTC_HEADER_SIZE + 4 + (compressPayload f.precision f.coords).length

/-- A whole trajectory file: the concatenated encodings of its frames. -/
def fileOf (frames : List Frame) : List WireItem :=
  (frames.map encItems).flatten

/-- The expected frame offsets, scanning from byte position `pos`. -/
def offsetsOf : List Frame → Nat → List Nat
  | [], _ => []
  | f :: rest, pos => pos :: offsetsOf rest (pos + frameByteLen f)

/-- Well-formedness of a frame within a file of `n0`-atom frames: the
declared topology is constant (spec §4.4), the box is a full 3×3 matrix,
and compressed-path frames carry a positive precision (spec §7). -/
def FrameWF (n0 : Nat) (f : Frame) : Prop :=
  f.coords.length = n0 ∧ f.box.length = DIM * DIM ∧ (10 ≤ n0 → 0 < f.precision)

/-! ## Reader lemmas on encoded shapes -/

theorem rdF32s_map (l : List ℚ) (rest : List WireItem) :
    rdF32s l.length (l.map WireItem.f32 ++ rest) = .ok (l, rest) := by
  induction l generalizing rest with
  | nil => rfl
  | cons q t ih =>
      show rdF32s (t.length + 1) (.f32 q :: (t.map WireItem.f32 ++ rest)) = _
      rw [rdF32s]
      simp only [rdF32]
      rw [ih rest]

theorem rdF32s_of_len (n : Nat) (l : List ℚ) (rest : List WireItem) (h : n = l.length) :
    rdF32s n (l.map WireItem.f32 ++ rest) = .ok (l, rest) := by
  subst h
  exact rdF32s_map l rest

/-- The flattened coordinate floats of the short path. -/
def flatQ (coords : List (ℚ × ℚ × ℚ)) : List ℚ :=
  (coords.map fun c => [c.1, c.2.1, c.2.2]).flatten

theorem flatQ_length (coords : List (ℚ × ℚ × ℚ)) :
    (flatQ coords).length = 3 * coords.length := by
  induction coords with
  | nil => rfl
  | cons c t ih =>
      simp only [flatQ, List.map_cons, List.flatten_cons, List.length_append] at *
      rw [ih]
      simp [List.length_cons]
      ring

theorem shortCoordItems_eq (coords : List (ℚ × ℚ × ℚ)) :
    shortCoordItems coords = (flatQ coords).map WireItem.f32 := by
  induction coords with
  | nil => rfl
  | cons c t ih =>
      simp only [shortCoordItems, flatQ, List.map_cons, List.flatten_cons,
        List.map_append] at *
      rw [ih]
      rfl

theorem regroupQ3_flatQ (coords : List (ℚ × ℚ × ℚ)) :
    regroupQ3 (flatQ coords) = coords := by
  induction coords with
  | nil => rfl
  | cons c t ih =>
      show regroupQ3 (c.1 :: c.2.1 :: c.2.2 :: flatQ t) = c :: t
      rw [regroupQ3, ih]

/-! ## Byte-size lemmas -/

theorem itemsByteLen_map_f32 (l : List ℚ) :
    itemsByteLen (l.map WireItem.f32) = 4 * l.length := by
  induction l with
  | nil => rfl
  | cons q t ih =>
      simp only [itemsByteLen, List.map_cons, List.sum_cons] at *
      rw [ih]
      simp [WireItem.byteSize, List.length_cons]
      ring

theorem itemsByteLen_shortCoordItems (coords : List (ℚ × ℚ × ℚ)) :
    itemsByteLen (shortCoordItems coords) = XTC_SHORT_BYTESPERATOM * coords.length := by
  rw [shortCoordItems_eq, itemsByteLen_map_f32, flatQ_length]
  show 4 * (3 * coords.length) = 12 * coords.length
  ring

theorem itemsByteLen_headerItems (natoms : Nat) (stepv : Int) (timev : ℚ) (box : List ℚ)
    (hbox : box.length = DIM * DIM) :
    itemsByteLen (headerItems natoms stepv timev box) = XTC_SHORTHEADER_SIZE := by
  simp only [headerItems, itemsByteLen_append, itemsByteLen_map_f32, hbox]
  rfl

theorem itemsByteLen_payloadItems (payload : List Nat) :
    itemsByteLen (payloadItems payload) = payload.length := by
  by_cases h : payload.isEmpty
  · have h0 : payload = [] := List.isEmpty_iff.mp h
    subst h0
    rfl
  · simp only [payloadItems, if_neg h]
    simp [itemsByteLen, WireItem.byteSize]

theorem itemsByteLen_longTailItems (prec : ℚ) (mins maxs : Int × Int × Int)
    (si : Nat) (payload : List Nat) :
    itemsByteLen (longTailItems prec mins maxs si payload)
      = (XTC_HEADER_SIZE + 4 + payload.length) - XTC_SHORTHEADER_SIZE := by
  simp only [longTailItems, itemsByteLen_append, itemsByteLen_payloadItems]
  show itemsByteLen _ + payload.length = 92 + payload.length - 56
  simp [itemsByteLen, WireItem.byteSize]
  omega

theorem itemsByteLen_encItems (f : Frame) (hbox : f.box.length = DIM * DIM) :
    itemsByteLen (encItems f) = frameByteLen f := by
  by_cases h : f.coords.length < 10
  · simp only [encItems, frameByteLen, if_pos h, itemsByteLen_append,
      itemsByteLen_headerItems _ _ _ _ hbox, itemsByteLen_shortCoordItems]
  · simp only [encItems, frameByteLen, if_neg h, itemsByteLen_append,
      itemsByteLen_headerItems _ _ _ _ hbox, itemsByteLen_longTailItems]
    show (56 : Nat) + (88 + 4 + _ - 56) = 88 + 4 + _
    omega

theorem frameByteLen_pos (f : Frame) : 0 < frameByteLen f := by
  by_cases h : f.coords.length < 10
  · rw [frameByteLen, if_pos h]
    show 0 < 56 + 12 * f.coords.length
    omega
  · rw [frameByteLen, if_neg h]
    show 0 < 88 + 4 + (compressPayload f.precision f.coords).length
    omega

/-! ## Seek lemmas -/

/-- Scalar (4-byte) wire items: everything except a raw byte run. -/
def WireItem.isScalar : WireItem → Bool
  | .bytes _ => false
  | _ => true

theorem skipBytes_zero (items : List WireItem) : skipBytes 0 items = .ok items := by
  rw [skipBytes.eq_def, if_pos rfl]

theorem skipBytes_nil_pos (k : Nat) (h : 0 < k) :
    skipBytes k [] = .error .truncatedFrame := by
  rw [skipBytes.eq_def, if_neg (show ¬ k = 0 by omega)]

theorem skipBytes_i32 (k : Nat) (v : Int) (rest : List WireItem) (h4 : 4 ≤ k) :
    skipBytes k (.i32 v :: rest) = skipBytes (k - 4) rest := by
  rw [skipBytes.eq_def, if_neg (show ¬ k = 0 by omega)]
  show (if 4 ≤ k then skipBytes (k - 4) rest else Except.error XtcErr.malformedFrame) = _
  rw [if_pos h4]

theorem skipBytes_f32 (k : Nat) (v : ℚ) (rest : List WireItem) (h4 : 4 ≤ k) :
    skipBytes k (.f32 v :: rest) = skipBytes (k - 4) rest := by
  rw [skipBytes.eq_def, if_neg (show ¬ k = 0 by omega)]
  show (if 4 ≤ k then skipBytes (k - 4) rest else Except.error XtcErr.malformedFrame) = _
  rw [if_pos h4]

theorem skipBytes_bytes_le (k : Nat) (bs : List Nat) (rest : List WireItem)
    (h0 : 0 < k) (hle : bs.length ≤ k) :
    skipBytes k (.bytes bs :: rest) = skipBytes (k - bs.length) rest := by
  rw [skipBytes.eq_def, if_neg (show ¬ k = 0 by omega)]
  show (if bs.length ≤ k then skipBytes (k - bs.length) rest
        else Except.ok (WireItem.bytes (bs.drop k) :: rest)) = _
  rw [if_pos hle]

theorem skipBytes_scalars (l rest : List WireItem)
    (hs : ∀ it ∈ l, it.isScalar = true) :
    skipBytes (itemsByteLen l) (l ++ rest) = .ok rest := by
  induction l with
  | nil => exact skipBytes_zero rest
  | cons it t ih =>
      have hit : it.isScalar = true := hs it (List.mem_cons_self it t)
      have ht : ∀ x ∈ t, x.isScalar = true := fun x hx => hs x (List.mem_cons_of_mem _ hx)
      have hlen4 : it.byteSize = 4 := by
        match it, hit with
        | .i32 v, _ => rfl
        | .f32 v, _ => rfl
      have hlen : itemsByteLen (it :: t) = 4 + itemsByteLen t := by
        simp [itemsByteLen, hlen4]
      rw [hlen, List.cons_append]
      match it, hit with
      | .i32 v, _ =>
          rw [skipBytes_i32 _ v _ (by omega)]
          have h1 : 4 + itemsByteLen t - 4 = itemsByteLen t := by omega
          rw [h1]
          exact ih ht
      | .f32 v, _ =>
          rw [skipBytes_f32 _ v _ (by omega)]
          have h1 : 4 + itemsByteLen t - 4 = itemsByteLen t := by omega
          rw [h1]
          exact ih ht

theorem skipBytes_payloadItems (payload : List Nat) (rest : List WireItem) :
    skipBytes payload.length (payloadItems payload ++ rest) = .ok rest := by
  match payload with
  | [] => exact skipBytes_zero rest
  | b :: bs =>
      have hne : ¬ (b :: bs : List Nat).isEmpty := by simp
      rw [payloadItems, if_neg hne, List.cons_append, List.nil_append]
      rw [skipBytes_bytes_le _ _ _ (List.length_pos.mpr (List.cons_ne_nil b bs)) le_rfl]
      have h1 : (b :: bs : List Nat).length - (b :: bs : List Nat).length = 0 := by omega
      rw [h1]
      exact skipBytes_zero rest

/-! ## Scanning an encoded frame -/

/-- The items a short-path scan seeks across after magic and atom count. -/
def shortSkipBlock (f : Frame) : List WireItem :=
  [.i32 f.step, .f32 f.time] ++ f.box.map WireItem.f32
    ++ [.i32 (f.coords.length : Int)] ++ shortCoordItems f.coords

/-- The items a long-path scan seeks across after magic and atom count,
up to (excluding) the payload byte-length field. -/
def longSkipBlock (f : Frame) : List WireItem :=
  [.i32 f.step, .f32 f.time] ++ f.box.map WireItem.f32
    ++ [.i32 (f.coords.length : Int), .f32 f.precision,
        .i32 (frameMins f.precision f.coords).1,
        .i32 (frameMins f.precision f.coords).2.1,
        .i32 (frameMins f.precision f.coords).2.2,
        .i32 (frameMaxs f.precision f.coords).1,
        .i32 (frameMaxs f.precision f.coords).2.1,
        .i32 (frameMaxs f.precision f.coords).2.2,
        .i32 ((frameSmallIdx (widthsFromExtents (frameMins f.precision f.coords)
          (frameMaxs f.precision f.coords)) : Nat) : Int)]

theorem encItems_short_shape (f : Frame) (h : f.coords.length < 10) :
    encItems f = .i32 xtcMagic :: .i32 (f.coords.length : Int) :: shortSkipBlock f := by
  simp [encItems, if_pos h, headerItems, shortSkipBlock, List.append_assoc]

theorem encItems_long_shape (f : Frame) (h : ¬ f.coords.length < 10) :
    encItems f = .i32 xtcMagic :: .i32 (f.coords.length : Int) ::
      (longSkipBlock f
        ++ (.i32 ((compressPayload f.precision f.coords).length : Int)
            :: payloadItems (compressPayload f.precision f.coords))) := by
  simp [encItems, if_neg h, headerItems, longSkipBlock, longTailItems, List.append_assoc]

theorem isScalar_nil : ∀ it ∈ ([] : List WireItem), it.isScalar = true := by
  intro it hit
  cases hit

theorem isScalar_cons (x : WireItem) (l : List WireItem)
    (hx : x.isScalar = true) (h : ∀ it ∈ l, it.isScalar = true) :
    ∀ it ∈ x :: l, it.isScalar = true := by
  intro it hit
  rcases List.mem_cons.mp hit with h1 | h1
  · subst h1
    exact hx
  · exact h it h1

theorem isScalar_append (l1 l2 : List WireItem)
    (h1 : ∀ it ∈ l1, it.isScalar = true) (h2 : ∀ it ∈ l2, it.isScalar = true) :
    ∀ it ∈ l1 ++ l2, it.isScalar = true := by
  intro it hit
  rcases List.mem_append.mp hit with h | h
  · exact h1 it h
  · exact h2 it h

theorem isScalar_map_f32 (l : List ℚ) :
    ∀ it ∈ l.map WireItem.f32, it.isScalar = true := by
  intro it hit
  obtain ⟨q, hq, rfl⟩ := List.mem_map.mp hit
  rfl

theorem isScalar_shortSkipBlock (f : Frame) :
    ∀ it ∈ shortSkipBlock f, it.isScalar = true := by
  rw [shortSkipBlock, shortCoordItems_eq]
  refine isScalar_append _ _ (isScalar_append _ _ (isScalar_append _ _ ?_
    (isScalar_map_f32 _)) ?_) (isScalar_map_f32 _)
  · exact isScalar_cons _ _ rfl (isScalar_cons _ _ rfl isScalar_nil)
  · exact isScalar_cons _ _ rfl isScalar_nil

theorem isScalar_longSkipBlock (f : Frame) :
    ∀ it ∈ longSkipBlock f, it.isScalar = true := by
  rw [longSkipBlock]
  refine isScalar_append _ _ (isScalar_append _ _ ?_ (isScalar_map_f32 _)) ?_
  · exact isScalar_cons _ _ rfl (isScalar_cons _ _ rfl isScalar_nil)
  · refine isScalar_cons _ _ rfl (isScalar_cons _ _ rfl (isScalar_cons _ _ rfl
      (isScalar_cons _ _ rfl (isScalar_cons _ _ rfl (isScalar_cons _ _ rfl
      (isScalar_cons _ _ rfl (isScalar_cons _ _ rfl (isScalar_cons _ _ rfl
      isScalar_nil))))))))

theorem itemsByteLen_shortSkipBlock (f : Frame) (hbox : f.box.length = DIM * DIM) :
    itemsByteLen (shortSkipBlock f)
      = XTC_SHORTHEADER_SIZE - 8 + XTC_SHORT_BYTESPERATOM * f.coords.length := by
  simp only [shortSkipBlock, itemsByteLen_append, itemsByteLen_map_f32,
    itemsByteLen_shortCoordItems, hbox]
  show itemsByteLen _ + 4 * (DIM * DIM) + itemsByteLen _ + 12 * _ = 48 + 12 * _
  simp [itemsByteLen, WireItem.byteSize, DIM]

theorem itemsByteLen_longSkipBlock (f : Frame) (hbox : f.box.length = DIM * DIM) :
    itemsByteLen (longSkipBlock f) = XTC_HEADER_SIZE - 8 := by
  simp only [longSkipBlock, itemsByteLen_append, itemsByteLen_map_f32, hbox]
  show itemsByteLen _ + 4 * (DIM * DIM) + itemsByteLen _ = 80
  simp [itemsByteLen, WireItem.byteSize, DIM]

theorem scanFrameHeader_encoded_short (f : Frame) (rest : List WireItem) (e : Option Int)
    (hn : f.coords.length < 10) (hbox : f.box.length = DIM * DIM)
    (he : guardAtoms e (f.coords.length : Int) = .ok ()) :
    scanFrameHeader e (encItems f ++ rest)
      = .ok ((f.coords.length : Int), frameByteLen f, rest) := by
  have h0 : ¬ ((f.coords.length : Int) < 0) := by
    have h1 := Int.natCast_nonneg f.coords.length
    omega
  have h10 : ((f.coords.length : Int) < 10) := Int.ofNat_lt.mpr hn
  have hskip : skipBytes (XTC_SHORTHEADER_SIZE - 8
      + XTC_SHORT_BYTESPERATOM * ((f.coords.length : Int)).toNat)
      (shortSkipBlock f ++ rest) = .ok rest := by
    rw [Int.toNat_natCast, ← itemsByteLen_shortSkipBlock f hbox]
    exact skipBytes_scalars _ _ (isScalar_shortSkipBlock f)
  rw [encItems_short_shape f hn, List.cons_append, List.cons_append]
  simp only [scanFrameHeader, rdI32, he, hskip, h0, h10, if_true, if_false,
    eq_self_iff_true, ite_true, ite_false]
  rw [frameByteLen, if_pos hn, Int.toNat_natCast]

theorem scanFrameHeader_encoded_long (f : Frame) (rest : List WireItem) (e : Option Int)
    (hn : ¬ f.coords.length < 10) (hbox : f.box.length = DIM * DIM)
    (he : guardAtoms e (f.coords.length : Int) = .ok ()) :
    scanFrameHeader e (encItems f ++ rest)
      = .ok ((f.coords.length : Int), frameByteLen f, rest) := by
  have h0 : ¬ ((f.coords.length : Int) < 0) := by
    have h1 := Int.natCast_nonneg f.coords.length
    omega
  have h10 : ¬ ((f.coords.length : Int) < 10) := by
    intro hc
    exact hn (Int.ofNat_lt.mp hc)
  have hL0 : ¬ (((compressPayload f.precision f.coords).length : Int) < 0) := by
    have h1 := Int.natCast_nonneg (compressPayload f.precision f.coords).length
    omega
  have hskip1 : skipBytes (XTC_HEADER_SIZE - 8)
      (longSkipBlock f ++ (.i32 ((compressPayload f.precision f.coords).length : Int)
        :: (payloadItems (compressPayload f.precision f.coords) ++ rest))) = .ok
      (.i32 ((compressPayload f.precision f.coords).length : Int)
        :: (payloadItems (compressPayload f.precision f.coords) ++ rest)) := by
    rw [← itemsByteLen_longSkipBlock f hbox]
    exact skipBytes_scalars _ _ (isScalar_longSkipBlock f)
  have hskip2 : skipBytes (((compressPayload f.precision f.coords).length : Int)).toNat
      (payloadItems (compressPayload f.precision f.coords) ++ rest) = .ok rest := by
    rw [Int.toNat_natCast]
    exact skipBytes_payloadItems _ rest
  rw [encItems_long_shape f hn, List.cons_append, List.cons_append,
    List.append_assoc, List.cons_append]
  simp only [scanFrameHeader, rdI32, he, hskip1, hskip2, h0, h10, hL0, if_true, if_false,
    eq_self_iff_true, ite_true, ite_false]
  rw [frameByteLen, if_neg hn, Int.toNat_natCast]

theorem encItems_ne_nil (f : Frame) : encItems f ≠ [] := by
  by_cases h : f.coords.length < 10
  · rw [encItems_short_shape f h]
    exact List.cons_ne_nil _ _
  · rw [encItems_long_shape f h]
    exact List.cons_ne_nil _ _

theorem scanFrameHeader_encoded (f : Frame) (rest : List WireItem) (e : Option Int)
    (hbox : f.box.length = DIM * DIM)
    (he : guardAtoms e (f.coords.length : Int) = .ok ()) :
    scanFrameHeader e (encItems f ++ rest)
      = .ok ((f.coords.length : Int), frameByteLen f, rest) := by
  by_cases hn : f.coords.length < 10
  · exact scanFrameHeader_encoded_short f rest e hn hbox he
  · exact scanFrameHeader_encoded_long f rest e hn hbox he

theorem scanGo_fileOf (frames : List Frame) (n0 : Nat)
    (hwf : ∀ f ∈ frames, FrameWF n0 f) :
    ∀ (fuel pos : Nat) (e : Option Int),
      (fileOf frames).length ≤ fuel →
      (e = none ∨ e = some (n0 : Int)) →
      scanGo fuel e pos (fileOf frames) = .ok (offsetsOf frames pos) := by
  induction frames with
  | nil =>
      intro fuel pos e hfuel he
      show scanGo fuel e pos [] = .ok []
      cases fuel <;> rfl
  | cons f rest ih =>
      intro fuel pos e hfuel he
      have hfile : fileOf (f :: rest) = encItems f ++ fileOf rest := by
        simp [fileOf]
      obtain ⟨hf1, hf2, hf3⟩ := hwf f (List.mem_cons_self f rest)
      have hguard : guardAtoms e (f.coords.length : Int) = .ok () := by
        rcases he with he | he <;> subst he
        · rfl
        · rw [guardAtoms, hf1, if_pos rfl]
      have hscan := scanFrameHeader_encoded f (fileOf rest) e hf2 hguard
      have hlen1 : 1 ≤ (encItems f).length := by
        have h1 := encItems_ne_nil f
        cases hco : encItems f with
        | nil => exact absurd hco h1
        | cons a b =>
            rw [List.length_cons]
            exact Nat.succ_le_succ (Nat.zero_le _)
      match fuel with
      | 0 =>
          exfalso
          rw [hfile] at hfuel
          simp only [List.length_append] at hfuel
          omega
      | fuel + 1 =>
          rw [hfile]
          have hcons : ∃ a b, encItems f ++ fileOf rest = a :: b := by
            cases hco : encItems f with
            | nil => exact absurd hco (encItems_ne_nil f)
            | cons a b => exact ⟨a, b ++ fileOf rest, by simp [hco]⟩
          obtain ⟨a, b, hab⟩ := hcons
          have hrec : scanGo fuel (some (f.coords.length : Int))
              (pos + frameByteLen f) (fileOf rest) = .ok (offsetsOf rest (pos + frameByteLen f)) := by
            have hfuel2 : (fileOf rest).length ≤ fuel := by
              rw [hfile] at hfuel
              simp only [List.length_append] at hfuel
              omega
            have he2 : (some (f.coords.length : Int) : Option Int) = none
                ∨ (some (f.coords.length : Int) : Option Int) = some (n0 : Int) := by
              right
              rw [hf1]
            exact ih (fun g hg => hwf g (List.mem_cons_of_mem f hg))
              fuel (pos + frameByteLen f) (some (f.coords.length : Int)) hfuel2 he2
          rw [hab]
          simp only [scanGo]
          rw [← hab, hscan]
          simp only [hrec]
          rfl

theorem offsetsOf_length (frames : List Frame) (pos : Nat) :
    (offsetsOf frames pos).length = frames.length := by
  induction frames generalizing pos with
  | nil => rfl
  | cons f rest ih => simp [offsetsOf, ih]

theorem offsetsOf_chain (frames : List Frame) (pos : Nat) :
    List.Chain' (· < ·) (offsetsOf frames pos) := by
  induction frames generalizing pos with
  | nil => exact List.chain'_nil
  | cons f rest ih =>
      cases rest with
      | nil => simp [offsetsOf]
      | cons g rest2 =>
          show List.Chain' (· < ·) (pos :: (pos + frameByteLen f) ::
            offsetsOf rest2 (pos + frameByteLen f + frameByteLen g))
          rw [List.chain'_cons]
          constructor
          · have h2 := frameByteLen_pos f
            omega
          · exact ih (pos + frameByteLen f)

theorem writeFrame_eq_encItems (f : Frame)
    (h : 10 ≤ f.coords.length → 0 < f.precision) :
    writeFrame f = .ok (encItems f) := by
  by_cases hn : f.coords.length < 10
  · rw [writeFrame, if_pos hn, encItems, if_pos hn]
  · have hp : 0 < f.precision := h (by omega)
    rw [writeFrame, if_neg hn, if_neg (Rat.not_le.mpr hp), encItems, if_neg hn]

/-- Total byte length of a file of frames. -/
def totalByteLen (frames : List Frame) : Nat := (frames.map frameByteLen).sum

theorem scanGo_fileOf_then (frames : List Frame) (n0 : Nat)
    (hwf : ∀ f ∈ frames, FrameWF n0 f) :
    ∀ (fuel pos : Nat) (e : Option Int) (tail : List WireItem),
      (e = none ∨ e = some (n0 : Int)) →
      scanGo (fuel + frames.length) e pos (fileOf frames ++ tail)
        = match scanGo fuel (if frames.isEmpty then e else some (n0 : Int))
            (pos + totalByteLen frames) tail with
          | .error err => .error err
          | .ok offs => .ok (offsetsOf frames pos ++ offs)
  := by
  induction frames with
  | nil =>
      intro fuel pos e tail he
      show scanGo fuel e pos tail = _
      have h0 : totalByteLen [] = 0 := rfl
      rw [h0, Nat.add_zero]
      cases hres : scanGo fuel e pos tail <;> simp [offsetsOf, hres]
  | cons f rest ih =>
      intro fuel pos e tail he
      have hfile : fileOf (f :: rest) ++ tail = encItems f ++ (fileOf rest ++ tail) := by
        simp [fileOf]
      obtain ⟨hf1, hf2, hf3⟩ := hwf f (List.mem_cons_self f rest)
      have hguard : guardAtoms e (f.coords.length : Int) = .ok () := by
        rcases he with he | he <;> subst he
        · rfl
        · rw [guardAtoms, hf1, if_pos rfl]
      have hscan := scanFrameHeader_encoded f (fileOf rest ++ tail) e hf2 hguard
      rw [hfile]
      have hcons : ∃ a b, encItems f ++ (fileOf rest ++ tail) = a :: b := by
        cases hco : encItems f with
        | nil => exact absurd hco (encItems_ne_nil f)
        | cons a b => exact ⟨a, b ++ (fileOf rest ++ tail), by simp [hco]⟩
      obtain ⟨a, b, hab⟩ := hcons
      have hstep : fuel + (f :: rest).length = (fuel + rest.length) + 1 := by
        simp [List.length_cons]
        omega
      rw [hstep, hab]
      simp only [scanGo]
      rw [← hab, hscan]
      have hrec := ih (fun g hg => hwf g (List.mem_cons_of_mem f hg))
        fuel (pos + frameByteLen f) (some (f.coords.length : Int)) tail
        (Or.inr (by rw [hf1]))
      simp only [hrec]
      have hemp : (if (f :: rest).isEmpty then e else some (n0 : Int)) = some (n0 : Int) := by
        rfl
      rw [hemp]
      have htot : pos + frameByteLen f + totalByteLen rest = pos + totalByteLen (f :: rest) := by
        simp [totalByteLen]
        omega
      rw [htot, hf1, ite_self]
      cases hres : scanGo fuel (some ((n0 : Nat) : Int))
          (pos + totalByteLen (f :: rest)) tail <;>
        simp [offsetsOf, hres]

theorem length_fileOf_ge (frames : List Frame) :
    frames.length ≤ (fileOf frames).length := by
  induction frames with
  | nil => exact Nat.zero_le _
  | cons f rest ih =>
      have h1 : 1 ≤ (encItems f).length := by
        cases hco : encItems f with
        | nil => exact absurd hco (encItems_ne_nil f)
        | cons a b =>
            rw [List.length_cons]
            exact Nat.succ_le_succ (Nat.zero_le _)
      simp only [fileOf, List.map_cons, List.flatten_cons, List.length_append,
        List.length_cons] at *
      omega

theorem scanGo_error_head (fuel : Nat) (e : Option Int) (pos : Nat)
    (items : List WireItem) (err : XtcErr) (hfuel : 1 ≤ fuel) (hne : items ≠ [])
    (h : scanFrameHeader e items = .error err) :
    scanGo fuel e pos items = .error err := by
  obtain ⟨k, rfl⟩ : ∃ k, fuel = k + 1 := ⟨fuel - 1, by omega⟩
  obtain ⟨a, b, rfl⟩ : ∃ a b, items = a :: b := by
    cases items with
    | nil => exact absurd rfl hne
    | cons a b => exact ⟨a, b, rfl⟩
  simp only [scanGo, h]

theorem scanFrames_prefix_error (frames : List Frame) (n0 : Nat) (tail : List WireItem)
    (err : XtcErr) (hwf : ∀ f ∈ frames, FrameWF n0 f) (hne : tail ≠ [])
    (h : scanFrameHeader (if frames.isEmpty then none else some (n0 : Int)) tail
        = .error err) :
    scanFrames (fileOf frames ++ tail) = .error err := by
  have hlen := length_fileOf_ge frames
  have htail : 1 ≤ tail.length := by
    cases tail with
    | nil => exact absurd rfl hne
    | cons a b =>
        rw [List.length_cons]
        exact Nat.succ_le_succ (Nat.zero_le _)
  have hfl : (fileOf frames ++ tail).length
      = ((fileOf frames).length - frames.length + tail.length) + frames.length := by
    simp only [List.length_append]
    omega
  rw [scanFrames, hfl]
  rw [scanGo_fileOf_then frames n0 hwf _ 0 none tail (Or.inl rfl)]
  rw [scanGo_error_head _ _ _ tail err (by omega) hne h]

theorem scanFrameHeader_mismatch (g : Frame) (suffix : List WireItem) (n0 : Int)
    (hg : (g.coords.length : Int) ≠ n0) :
    scanFrameHeader (some n0) (encItems g ++ suffix) = .error .atomCountMismatch := by
  have h0 : ¬ ((g.coords.length : Int) < 0) := by
    have h1 := Int.natCast_nonneg g.coords.length
    omega
  have hgu : guardAtoms (some n0) (g.coords.length : Int) = .error .atomCountMismatch := by
    rw [guardAtoms, if_neg hg]
  by_cases hn : g.coords.length < 10
  · rw [encItems_short_shape g hn, List.cons_append, List.cons_append]
    simp only [scanFrameHeader, rdI32, h0, hgu, eq_self_iff_true, if_true, ite_true,
      ite_false, if_false]
  · rw [encItems_long_shape g hn, List.cons_append, List.cons_append]
    simp only [scanFrameHeader, rdI32, h0, hgu, eq_self_iff_true, if_true, ite_true,
      ite_false, if_false]

/-! ## Truncated frames (spec §7 TruncatedFrame) -/

/-- The header-skip block of a raw long-path frame, given by its fields. -/
def longSkipBlockRaw (stepv : Int) (timev : ℚ) (box : List ℚ) (n : Nat) (prec : ℚ)
    (mins maxs : Int × Int × Int) (si : Nat) : List WireItem :=
  [.i32 stepv, .f32 timev] ++ box.map WireItem.f32
    ++ [.i32 (n : Int), .f32 prec, .i32 mins.1, .i32 mins.2.1, .i32 mins.2.2,
        .i32 maxs.1, .i32 maxs.2.1, .i32 maxs.2.2, .i32 (si : Int)]

/-- A long-path frame given by raw header fields and a (possibly too short)
payload byte run: the shape used to state truncation, where the declared
payload byte length exceeds the bytes actually present. -/
def longFrameRaw (n : Nat) (stepv : Int) (timev : ℚ) (box : List ℚ) (prec : ℚ)
    (mins maxs : Int × Int × Int) (si : Nat) (declared : Nat) (bs : List Nat) :
    List WireItem :=
  headerItems n stepv timev box
    ++ ([.f32 prec, .i32 mins.1, .i32 mins.2.1, .i32 mins.2.2,
         .i32 maxs.1, .i32 maxs.2.1, .i32 maxs.2.2, .i32 (si : Int),
         .i32 (declared : Int)] ++ payloadItems bs)

theorem isScalar_longSkipBlockRaw (stepv : Int) (timev : ℚ) (box : List ℚ) (n : Nat)
    (prec : ℚ) (mins maxs : Int × Int × Int) (si : Nat) :
    ∀ it ∈ longSkipBlockRaw stepv timev box n prec mins maxs si, it.isScalar = true := by
  rw [longSkipBlockRaw]
  refine isScalar_append _ _ (isScalar_append _ _ ?_ (isScalar_map_f32 _)) ?_
  · exact isScalar_cons _ _ rfl (isScalar_cons _ _ rfl isScalar_nil)
  · refine isScalar_cons _ _ rfl (isScalar_cons _ _ rfl (isScalar_cons _ _ rfl
      (isScalar_cons _ _ rfl (isScalar_cons _ _ rfl (isScalar_cons _ _ rfl
      (isScalar_cons _ _ rfl (isScalar_cons _ _ rfl (isScalar_cons _ _ rfl
      isScalar_nil))))))))

theorem itemsByteLen_longSkipBlockRaw (stepv : Int) (timev : ℚ) (box : List ℚ) (n : Nat)
    (prec : ℚ) (mins maxs : Int × Int × Int) (si : Nat) (hbox : box.length = DIM * DIM) :
    itemsByteLen (longSkipBlockRaw stepv timev box n prec mins maxs si)
      = XTC_HEADER_SIZE - 8 := by
  simp only [longSkipBlockRaw, itemsByteLen_append, itemsByteLen_map_f32, hbox]
  show itemsByteLen _ + 4 * (DIM * DIM) + itemsByteLen _ = 80
  simp [itemsByteLen, WireItem.byteSize, DIM]

theorem longFrameRaw_shape (n : Nat) (stepv : Int) (timev : ℚ) (box : List ℚ) (prec : ℚ)
    (mins maxs : Int × Int × Int) (si : Nat) (declared : Nat) (bs : List Nat) :
    longFrameRaw n stepv timev box prec mins maxs si declared bs
      = .i32 xtcMagic :: .i32 (n : Int) ::
          (longSkipBlockRaw stepv timev box n prec mins maxs si
            ++ (.i32 (declared : Int) :: payloadItems bs)) := by
  simp [longFrameRaw, headerItems, longSkipBlockRaw, List.append_assoc]

theorem skipBytes_payload_trunc (declared : Nat) (bs : List Nat)
    (h : bs.length < declared) :
    skipBytes declared (payloadItems bs) = .error .truncatedFrame := by
  match bs with
  | [] =>
      show skipBytes declared [] = _
      exact skipBytes_nil_pos declared (by simpa using h)
  | b :: t =>
      have hne : ¬ (b :: t : List Nat).isEmpty := by simp
      rw [payloadItems, if_neg hne]
      rw [skipBytes_bytes_le declared (b :: t) [] (by simp at h; omega) (le_of_lt h)]
      exact skipBytes_nil_pos _ (by omega)

theorem rdPayload_trunc (declared : Nat) (bs : List Nat) (h : bs.length < declared) :
    rdPayload declared (payloadItems bs) = .error .truncatedFrame := by
  match bs with
  | [] =>
      show rdPayload declared [] = _
      rw [rdPayload, if_neg (by simp at h; omega)]
  | b :: t =>
      have hne : ¬ (b :: t : List Nat).isEmpty := by simp
      rw [payloadItems, if_neg hne]
      rw [rdPayload, dif_neg (by omega), if_neg (by omega)]

theorem scanFrameHeader_truncated (e : Option Int) (n : Nat) (stepv : Int) (timev : ℚ)
    (box : List ℚ) (prec : ℚ) (mins maxs : Int × Int × Int) (si : Nat)
    (declared : Nat) (bs : List Nat)
    (hn : 10 ≤ n) (hbox : box.length = DIM * DIM) (hlt : bs.length < declared)
    (he : guardAtoms e (n : Int) = .ok ()) :
    scanFrameHeader e (longFrameRaw n stepv timev box prec mins maxs si declared bs)
      = .error .truncatedFrame := by
  have h0 : ¬ ((n : Int) < 0) := by
    have h1 := Int.natCast_nonneg n
    omega
  have h10 : ¬ ((n : Int) < 10) := by
    intro hc
    have := hn
    omega
  have hd0 : ¬ ((declared : Int) < 0) := by
    have h1 := Int.natCast_nonneg declared
    omega
  have hskip1 : skipBytes (XTC_HEADER_SIZE - 8)
      (longSkipBlockRaw stepv timev box n prec mins maxs si
        ++ (.i32 (declared : Int) :: payloadItems bs))
      = .ok (.i32 (declared : Int) :: payloadItems bs) := by
    rw [← itemsByteLen_longSkipBlockRaw stepv timev box n prec mins maxs si hbox]
    exact skipBytes_scalars _ _ (isScalar_longSkipBlockRaw stepv timev box n prec mins maxs si)
  have hskip2 : skipBytes (((declared : Int)).toNat) (payloadItems bs)
      = .error .truncatedFrame := by
    rw [Int.toNat_natCast]
    exact skipBytes_payload_trunc declared bs hlt
  rw [longFrameRaw_shape]
  simp only [scanFrameHeader, rdI32, he, hskip1, hskip2, h0, h10, hd0, if_true, if_false,
    eq_self_iff_true, ite_true, ite_false]

theorem readFrame_truncated (n : Nat) (stepv : Int) (timev : ℚ) (box : List ℚ) (prec : ℚ)
    (mins maxs : Int × Int × Int) (si : Nat) (declared : Nat) (bs : List Nat)
    (hn : 10 ≤ n) (hbox : box.length = DIM * DIM) (hlt : bs.length < declared) :
    readFrame n (longFrameRaw n stepv timev box prec mins maxs si declared bs)
      = .error .truncatedFrame := by
  have h10 : ¬ ((n : Int) < 10) := by omega
  have hd0 : ¬ ((declared : Int) < 0) := by
    have h1 := Int.natCast_nonneg declared
    omega
  have hpay : rdPayload ((declared : Int)).toNat (payloadItems bs)
      = .error .truncatedFrame := by
    rw [Int.toNat_natCast]
    exact rdPayload_trunc declared bs hlt
  have hshape : longFrameRaw n stepv timev box prec mins maxs si declared bs
      = .i32 xtcMagic :: .i32 (n : Int) :: .i32 stepv :: .f32 timev ::
        (box.map WireItem.f32 ++ (.i32 (n : Int) :: .f32 prec
          :: .i32 mins.1 :: .i32 mins.2.1 :: .i32 mins.2.2
          :: .i32 maxs.1 :: .i32 maxs.2.1 :: .i32 maxs.2.2
          :: .i32 (si : Int) :: .i32 (declared : Int) :: payloadItems bs)) := by
    simp [longFrameRaw, headerItems, List.append_assoc]
  have hbox9 := rdF32s_of_len (DIM * DIM) box
    (.i32 (n : Int) :: .f32 prec :: .i32 mins.1 :: .i32 mins.2.1 :: .i32 mins.2.2
      :: .i32 maxs.1 :: .i32 maxs.2.1 :: .i32 maxs.2.2
      :: .i32 (si : Int) :: .i32 (declared : Int) :: payloadItems bs)
    (by rw [hbox])
  rw [hshape]
  simp only [readFrame, rdI32, rdF32, hbox9, hpay, h10, hd0, eq_self_iff_true, if_true,
    ite_true, ite_false, if_false]

/-! ## Compressor round trip -/

theorem framePairs_conslem (p : ℚ) (mins : Int × Int × Int) (ws : Nat × Nat × Nat)
    (c : ℚ × ℚ × ℚ) (t : List (ℚ × ℚ × ℚ)) :
    framePairs p mins ws (c :: t) = atomPairs p mins ws c ++ framePairs p mins ws t := by
  simp [framePairs]

theorem framePairs_fst (p : ℚ) (mins : Int × Int × Int) (ws : Nat × Nat × Nat)
    (coords : List (ℚ × ℚ × ℚ)) :
    (framePairs p mins ws coords).map Prod.fst = widthsList ws coords.length := by
  induction coords with
  | nil => rfl
  | cons c t ih =>
      rw [framePairs_conslem, List.map_append, ih]
      rfl

theorem quant_sub_min_lt (l : List Int) (q : Int) (hq : q ∈ l) :
    (q - listMinI l).toNat < 2 ^ bitWidth (listMaxI l - listMinI l).toNat := by
  have h1 := listMinI_le l q hq
  have h2 := le_listMaxI l q hq
  have h3 : (q - listMinI l).toNat ≤ (listMaxI l - listMinI l).toNat := by omega
  exact lt_of_le_of_lt h3 (lt_two_pow_bitWidth _)

theorem roundQ_eq_round (q : ℚ) : roundQ q = round q := by
  have hd0 : ((q.den : ℚ)) ≠ 0 :=
    fun h => q.den_nz (Int.ofNat_inj.mp (congrArg Rat.num h))
  have h2q : (2 : ℚ) ≠ 0 :=
    fun h => (by decide : ¬ (2 : Int) = 0) (congrArg Rat.num h)
  have hnum : ((q.num * 2 + (q.den : Int) : Int) : ℚ) = (q.num : ℚ) * 2 + (q.den : ℚ) := by
    rw [Rat.intCast_add, Rat.intCast_mul]
    rfl
  have hden : ((q.den * 2 : Nat) : ℚ) = (q.den : ℚ) * 2 := by
    show (((q.den * 2 : ℕ) : Int) : ℚ) = (q.den : ℚ) * 2
    rw [Int.natCast_mul, Rat.intCast_mul]
    rfl
  have hsum : q + 1 / 2
      = ((q.num * 2 + (q.den : Int) : Int) : ℚ) / ((q.den * 2 : Nat) : ℚ) := by
    have hstep : q + 1 / 2 = ((q.num : ℚ) * 2 + (q.den : ℚ) * 1) / ((q.den : ℚ) * 2) := by
      conv_lhs => rw [← Rat.num_div_den q]
      exact div_add_div (q.num : ℚ) 1 hd0 h2q
    rw [hstep, mul_one, hnum, hden]
  rw [roundQ, round_eq, hsum, Rat.floor_intCast_div_natCast]

theorem quant_error (p x : ℚ) (hp : 0 < p) :
    |((quant p x : Int) : ℚ) / p - x| ≤ 1 / 2 / p := by
  have hne : p ≠ 0 := ne_of_gt hp
  have h1 : ((quant p x : Int) : ℚ) / p - x = (((round (x * p) : Int) : ℚ) - x * p) / p := by
    rw [quant, roundQ_eq_round, sub_div, mul_div_cancel_right₀ x hne]
  rw [h1, abs_div, abs_of_pos hp]
  refine (div_le_div_right hp).mpr ?_
  rw [abs_sub_comm]
  exact abs_sub_round (x * p)

attribute [irreducible] quant roundQ bitWidth

theorem framePairs_snd_bound (p : ℚ) (coords : List (ℚ × ℚ × ℚ)) (pr : Nat × Nat)
    (hpr : pr ∈ framePairs p (frameMins p coords)
      (widthsFromExtents (frameMins p coords) (frameMaxs p coords)) coords) :
    pr.2 < 2 ^ pr.1 := by
  obtain ⟨lp, hlp, hpr2⟩ := List.mem_flatten.mp hpr
  obtain ⟨c, hc, rfl⟩ := List.mem_map.mp hlp
  simp only [atomPairs, frameMins, frameMaxs, widthsFromExtents, List.mem_cons,
    List.not_mem_nil, or_false] at hpr2
  rcases hpr2 with h | h | h <;> subst h
  · show (quant p c.1 - listMinI (coords.map fun c2 => quant p c2.1)).toNat
        < 2 ^ bitWidth (listMaxI (coords.map fun c2 => quant p c2.1)
            - listMinI (coords.map fun c2 => quant p c2.1)).toNat
    exact quant_sub_min_lt (coords.map fun c2 => quant p c2.1) (quant p c.1)
      (List.mem_map_of_mem (fun c2 => quant p c2.1) hc)
  · show (quant p c.2.1 - listMinI (coords.map fun c2 => quant p c2.2.1)).toNat
        < 2 ^ bitWidth (listMaxI (coords.map fun c2 => quant p c2.2.1)
            - listMinI (coords.map fun c2 => quant p c2.2.1)).toNat
    exact quant_sub_min_lt (coords.map fun c2 => quant p c2.2.1) (quant p c.2.1)
      (List.mem_map_of_mem (fun c2 => quant p c2.2.1) hc)
  · show (quant p c.2.2 - listMinI (coords.map fun c2 => quant p c2.2.2)).toNat
        < 2 ^ bitWidth (listMaxI (coords.map fun c2 => quant p c2.2.2)
            - listMinI (coords.map fun c2 => quant p c2.2.2)).toNat
    exact quant_sub_min_lt (coords.map fun c2 => quant p c2.2.2) (quant p c.2.2)
      (List.mem_map_of_mem (fun c2 => quant p c2.2.2) hc)

theorem unpackList_compressPayload (p : ℚ) (coords : List (ℚ × ℚ × ℚ)) :
    unpackList ⟨compressPayload p coords, 0⟩
        (widthsList (widthsFromExtents (frameMins p coords) (frameMaxs p coords))
          coords.length)
      = .ok ((framePairs p (frameMins p coords)
            (widthsFromExtents (frameMins p coords) (frameMaxs p coords)) coords).map
              Prod.snd,
          ⟨compressPayload p coords,
           sumWidths (framePairs p (frameMins p coords)
             (widthsFromExtents (frameMins p coords) (frameMaxs p coords)) coords)⟩) := by
  rw [← framePairs_fst]
  have h := unpackList_packList (framePairs p (frameMins p coords)
    (widthsFromExtents (frameMins p coords) (frameMaxs p coords)) coords)
  have hpb : compressPayload p coords
      = (packList emptyBuffer (framePairs p (frameMins p coords)
          (widthsFromExtents (frameMins p coords) (frameMaxs p coords)) coords)).bytes := rfl
  rw [hpb, h]
  have hmap : (framePairs p (frameMins p coords)
      (widthsFromExtents (frameMins p coords) (frameMaxs p coords)) coords).map
        (fun pr => pr.2 % 2 ^ pr.1)
      = (framePairs p (frameMins p coords)
          (widthsFromExtents (frameMins p coords) (frameMaxs p coords)) coords).map
            Prod.snd := by
    apply List.map_congr_left
    intro pr hpr
    exact Nat.mod_eq_of_lt (framePairs_snd_bound p coords pr hpr)
  rw [hmap]

theorem regroup3_framePairs (p : ℚ) (mins : Int × Int × Int) (ws : Nat × Nat × Nat)
    (coords : List (ℚ × ℚ × ℚ)) :
    regroup3 ((framePairs p mins ws coords).map Prod.snd)
      = coords.map (fun c => ((quant p c.1 - mins.1).toNat,
          (quant p c.2.1 - mins.2.1).toNat, (quant p c.2.2 - mins.2.2).toNat)) := by
  induction coords with
  | nil => rfl
  | cons c t ih =>
      rw [framePairs_conslem, List.map_append]
      show regroup3 ((quant p c.1 - mins.1).toNat :: (quant p c.2.1 - mins.2.1).toNat
        :: (quant p c.2.2 - mins.2.2).toNat :: (framePairs p mins ws t).map Prod.snd) = _
      rw [regroup3, ih]
      rfl

theorem decompress_compress (p : ℚ) (coords : List (ℚ × ℚ × ℚ)) :
    decompressCoords p (frameMins p coords) (frameMaxs p coords) coords.length
        (compressPayload p coords)
      = .ok (coords.map (fun c => (((quant p c.1 : Int) : ℚ) / p,
          ((quant p c.2.1 : Int) : ℚ) / p, ((quant p c.2.2 : Int) : ℚ) / p))) := by
  simp only [decompressCoords, unpackList_compressPayload]
  rw [regroup3_framePairs, List.map_map]
  apply congrArg
  apply List.map_congr_left
  intro c hc
  have hf1 : (frameMins p coords).1 = listMinI (coords.map fun c2 => quant p c2.1) := rfl
  have hf2 : (frameMins p coords).2.1 = listMinI (coords.map fun c2 => quant p c2.2.1) := rfl
  have hf3 : (frameMins p coords).2.2 = listMinI (coords.map fun c2 => quant p c2.2.2) := rfl
  have h1 : listMinI (coords.map fun c2 => quant p c2.1) ≤ quant p c.1 :=
    listMinI_le (coords.map fun c2 => quant p c2.1) (quant p c.1)
      (List.mem_map_of_mem (fun c2 => quant p c2.1) hc)
  have h2 : listMinI (coords.map fun c2 => quant p c2.2.1) ≤ quant p c.2.1 :=
    listMinI_le (coords.map fun c2 => quant p c2.2.1) (quant p c.2.1)
      (List.mem_map_of_mem (fun c2 => quant p c2.2.1) hc)
  have h3 : listMinI (coords.map fun c2 => quant p c2.2.2) ≤ quant p c.2.2 :=
    listMinI_le (coords.map fun c2 => quant p c2.2.2) (quant p c.2.2)
      (List.mem_map_of_mem (fun c2 => quant p c2.2.2) hc)
  have e1 : listMinI (coords.map fun c2 => quant p c2.1)
      + (((quant p c.1 - listMinI (coords.map fun c2 => quant p c2.1)).toNat : Int))
      = quant p c.1 := by
    rw [Int.toNat_of_nonneg (by omega)]
    omega
  have e2 : listMinI (coords.map fun c2 => quant p c2.2.1)
      + (((quant p c.2.1 - listMinI (coords.map fun c2 => quant p c2.2.1)).toNat : Int))
      = quant p c.2.1 := by
    rw [Int.toNat_of_nonneg (by omega)]
    omega
  have e3 : listMinI (coords.map fun c2 => quant p c2.2.2)
      + (((quant p c.2.2 - listMinI (coords.map fun c2 => quant p c2.2.2)).toNat : Int))
      = quant p c.2.2 := by
    rw [Int.toNat_of_nonneg (by omega)]
    omega
  simp only [Function.comp_apply]
  rw [dequant, hf1, hf2, hf3, e1, e2, e3]

/-! ## Frame decode of an encoded frame -/

theorem rdPayload_payloadItems_nil (payload : List Nat) :
    rdPayload payload.length (payloadItems payload ++ []) = .ok (payload, []) := by
  match payload with
  | [] => rfl
  | b :: t =>
      have hne : ¬ (b :: t : List Nat).isEmpty := by simp
      rw [payloadItems, if_neg hne, List.cons_append, List.nil_append]
      rw [rdPayload, dif_neg (lt_irrefl _), if_pos rfl]

theorem readFrame_encoded_short (f : Frame) (rest : List WireItem)
    (hn : f.coords.length < 10) (hbox : f.box.length = DIM * DIM) :
    readFrame f.coords.length (encItems f ++ rest)
      = .ok (⟨f.step, f.time, f.box, f.coords, 0⟩, rest) := by
  have h10 : ((f.coords.length : Int) < 10) := Int.ofNat_lt.mpr hn
  have hshape : encItems f ++ rest
      = .i32 xtcMagic :: .i32 (f.coords.length : Int) :: .i32 f.step :: .f32 f.time ::
        (f.box.map WireItem.f32 ++ (.i32 (f.coords.length : Int) ::
          ((flatQ f.coords).map WireItem.f32 ++ rest))) := by
    rw [encItems, if_pos hn]
    simp [headerItems, shortCoordItems_eq, List.append_assoc]
  have hbox9 := rdF32s_of_len (DIM * DIM) f.box
    (.i32 (f.coords.length : Int) :: ((flatQ f.coords).map WireItem.f32 ++ rest))
    (by rw [hbox])
  have hcs := rdF32s_of_len (DIM * f.coords.length) (flatQ f.coords) rest
    (by simp [flatQ_length, DIM])
  rw [hshape]
  simp only [readFrame, rdI32, rdF32, hbox9, hcs, h10, eq_self_iff_true, if_true,
    ite_true, ite_false, if_false]
  rw [regroupQ3_flatQ]

theorem readFrame_encoded_long (f : Frame) (hn : ¬ f.coords.length < 10)
    (hbox : f.box.length = DIM * DIM) :
    readFrame f.coords.length (encItems f)
      = .ok (⟨f.step, f.time, f.box,
          f.coords.map (fun c => (((quant f.precision c.1 : Int) : ℚ) / f.precision,
            ((quant f.precision c.2.1 : Int) : ℚ) / f.precision,
            ((quant f.precision c.2.2 : Int) : ℚ) / f.precision)),
          f.precision⟩, []) := by
  have h10 : ¬ ((f.coords.length : Int) < 10) := by
    intro hc
    exact hn (Int.ofNat_lt.mp hc)
  have hL0 : ¬ (((compressPayload f.precision f.coords).length : Int) < 0) := by
    have h1 := Int.natCast_nonneg (compressPayload f.precision f.coords).length
    omega
  have hshape : encItems f ++ ([] : List WireItem)
      = .i32 xtcMagic :: .i32 (f.coords.length : Int) :: .i32 f.step :: .f32 f.time ::
        (f.box.map WireItem.f32 ++ (.i32 (f.coords.length : Int) :: .f32 f.precision
          :: .i32 (frameMins f.precision f.coords).1
          :: .i32 (frameMins f.precision f.coords).2.1
          :: .i32 (frameMins f.precision f.coords).2.2
          :: .i32 (frameMaxs f.precision f.coords).1
          :: .i32 (frameMaxs f.precision f.coords).2.1
          :: .i32 (frameMaxs f.precision f.coords).2.2
          :: .i32 ((frameSmallIdx (widthsFromExtents (frameMins f.precision f.coords)
              (frameMaxs f.precision f.coords)) : Nat) : Int)
          :: .i32 ((compressPayload f.precision f.coords).length : Int)
          :: (payloadItems (compressPayload f.precision f.coords) ++ []))) := by
    rw [List.append_nil, encItems, if_neg hn]
    simp [headerItems, longTailItems, List.append_assoc]
  have hbox9 := rdF32s_of_len (DIM * DIM) f.box
    (.i32 (f.coords.length : Int) :: .f32 f.precision
      :: .i32 (frameMins f.precision f.coords).1
      :: .i32 (frameMins f.precision f.coords).2.1
      :: .i32 (frameMins f.precision f.coords).2.2
      :: .i32 (frameMaxs f.precision f.coords).1
      :: .i32 (frameMaxs f.precision f.coords).2.1
      :: .i32 (frameMaxs f.precision f.coords).2.2
      :: .i32 ((frameSmallIdx (widthsFromExtents (frameMins f.precision f.coords)
          (frameMaxs f.precision f.coords)) : Nat) : Int)
      :: .i32 ((compressPayload f.precision f.coords).length : Int)
      :: (payloadItems (compressPayload f.precision f.coords) ++ []))
    (by rw [hbox])
  have hL : (((compressPayload f.precision f.coords).length : Int)).toNat
      = (compressPayload f.precision f.coords).length := Int.toNat_natCast _
  have hpay : rdPayload ((((compressPayload f.precision f.coords).length : Int)).toNat)
      (payloadItems (compressPayload f.precision f.coords) ++ [])
      = .ok (compressPayload f.precision f.coords, []) := by
    rw [hL]
    exact rdPayload_payloadItems_nil _
  have hmins : ((frameMins f.precision f.coords).1, (frameMins f.precision f.coords).2.1,
      (frameMins f.precision f.coords).2.2) = frameMins f.precision f.coords := rfl
  have hmaxs : ((frameMaxs f.precision f.coords).1, (frameMaxs f.precision f.coords).2.1,
      (frameMaxs f.precision f.coords).2.2) = frameMaxs f.precision f.coords := rfl
  have hdec := decompress_compress f.precision f.coords
  have hread : readFrame f.coords.length (encItems f)
      = readFrame f.coords.length (encItems f ++ []) := by rw [List.append_nil]
  rw [hread, hshape]
  simp only [readFrame, rdI32, rdF32, hbox9, hpay, h10, hL0, eq_self_iff_true, if_true,
    ite_true, ite_false, if_false, hmins, hmaxs, hdec]

/-! ## Claim theorems -/

/-- C1: Round-trip.  For any frame with `atomCount ≥ 10` and
`precision ≥ 1`, decoding the encoding (`readFrame` after `writeFrame`)
yields coordinates within `0.5/precision` of the originals on every axis of
every atom; for `atomCount < 10` decoding returns the original coordinate
floats exactly (floats are modelled as rationals, so bit-identical means
equal). -/
theorem C1_readFrame_writeFrame_roundtrip (f : Frame)
    (hbox : f.box.length = DIM * DIM)
    (hprec : 10 ≤ f.coords.length → 1 ≤ f.precision) :
    ∃ items g, writeFrame f = .ok items ∧ readFrame f.coords.length items = .ok (g, [])
      ∧ g.step = f.step ∧ g.time = f.time ∧ g.box = f.box
      ∧ g.coords.length = f.coords.length
      ∧ (f.coords.length < 10 → g.coords = f.coords)
      ∧ (10 ≤ f.coords.length → ∀ i, i < f.coords.length →
          |(g.coords.getD i (0, 0, 0)).1 - (f.coords.getD i (0, 0, 0)).1|
              ≤ 1 / 2 / f.precision
          ∧ |(g.coords.getD i (0, 0, 0)).2.1 - (f.coords.getD i (0, 0, 0)).2.1|
              ≤ 1 / 2 / f.precision
          ∧ |(g.coords.getD i (0, 0, 0)).2.2 - (f.coords.getD i (0, 0, 0)).2.2|
              ≤ 1 / 2 / f.precision) := by
  by_cases hn : f.coords.length < 10
  · refine ⟨encItems f, ⟨f.step, f.time, f.box, f.coords, 0⟩,
      writeFrame_eq_encItems f (fun h => absurd h (by omega)), ?_, rfl, rfl, rfl, rfl,
      fun _ => rfl, fun h => absurd h (by omega)⟩
    have h1 := readFrame_encoded_short f [] hn hbox
    rw [List.append_nil] at h1
    exact h1
  · have hp1 : 1 ≤ f.precision := hprec (by omega)
    have hp0 : 0 < f.precision := lt_of_lt_of_le (by decide) hp1
    refine ⟨encItems f,
      ⟨f.step, f.time, f.box,
        f.coords.map (fun c => (((quant f.precision c.1 : Int) : ℚ) / f.precision,
          ((quant f.precision c.2.1 : Int) : ℚ) / f.precision,
          ((quant f.precision c.2.2 : Int) : ℚ) / f.precision)),
        f.precision⟩,
      writeFrame_eq_encItems f (fun _ => hp0),
      readFrame_encoded_long f hn hbox, rfl, rfl, rfl, by simp,
      fun h => absurd h hn, ?_⟩
    intro h10 i hi
    have hglen : (f.coords.map (fun c => (((quant f.precision c.1 : Int) : ℚ) / f.precision,
        ((quant f.precision c.2.1 : Int) : ℚ) / f.precision,
        ((quant f.precision c.2.2 : Int) : ℚ) / f.precision))).length
        = f.coords.length := by simp
    have hgetg : (f.coords.map (fun c => (((quant f.precision c.1 : Int) : ℚ) / f.precision,
        ((quant f.precision c.2.1 : Int) : ℚ) / f.precision,
        ((quant f.precision c.2.2 : Int) : ℚ) / f.precision))).getD i (0, 0, 0)
        = (((quant f.precision (f.coords.getD i (0, 0, 0)).1 : Int) : ℚ) / f.precision,
           ((quant f.precision (f.coords.getD i (0, 0, 0)).2.1 : Int) : ℚ) / f.precision,
           ((quant f.precision (f.coords.getD i (0, 0, 0)).2.2 : Int) : ℚ) / f.precision) := by
      rw [List.getD_eq_getElem _ _ (by simpa [hglen] using hi),
          List.getD_eq_getElem _ _ hi, List.getElem_map]
    rw [hgetg]
    exact ⟨quant_error f.precision (f.coords.getD i (0, 0, 0)).1 hp0,
           quant_error f.precision (f.coords.getD i (0, 0, 0)).2.1 hp0,
           quant_error f.precision (f.coords.getD i (0, 0, 0)).2.2 hp0⟩

/-- Concrete frame used by witnesses: ten atoms at the origin, precision 1. -/
def frameW1 : Frame := ⟨0, 0, [0, 0, 0, 0, 0, 0, 0, 0, 0], List.replicate 10 (0, 0, 0), 1⟩

/-- C1 witness at a concrete compressed-path frame. -/
theorem C1_witness : ∃ items g, writeFrame frameW1 = .ok items
      ∧ readFrame frameW1.coords.length items = .ok (g, [])
      ∧ g.step = frameW1.step ∧ g.time = frameW1.time ∧ g.box = frameW1.box
      ∧ g.coords.length = frameW1.coords.length
      ∧ (frameW1.coords.length < 10 → g.coords = frameW1.coords)
      ∧ (10 ≤ frameW1.coords.length → ∀ i, i < frameW1.coords.length →
          |(g.coords.getD i (0, 0, 0)).1 - (frameW1.coords.getD i (0, 0, 0)).1|
              ≤ 1 / 2 / frameW1.precision
          ∧ |(g.coords.getD i (0, 0, 0)).2.1 - (frameW1.coords.getD i (0, 0, 0)).2.1|
              ≤ 1 / 2 / frameW1.precision
          ∧ |(g.coords.getD i (0, 0, 0)).2.2 - (frameW1.coords.getD i (0, 0, 0)).2.2|
              ≤ 1 / 2 / frameW1.precision) :=
  C1_readFrame_writeFrame_roundtrip frameW1 rfl (fun _ => le_refl 1)

/-- C2: the scanner determines a frame's total byte length from the header
alone: scanning consumes exactly the frame (leaving the rest of the stream)
and reports its byte length without decoding coordinates; the length is
`XTC_SHORTHEADER_SIZE + XTC_SHORT_BYTESPERATOM * atomCount` = `56 + 12n` for
a short-path frame, and the value of the explicit compressed-payload
byte-length field plus the fixed header bytes (`XTC_HEADER_SIZE` plus the 4
bytes of the length field itself) for a long-path frame; in both cases it
equals the encoded frame's actual byte length. -/
theorem C2_scan_length_from_header (f : Frame) (rest : List WireItem)
    (hbox : f.box.length = DIM * DIM) :
    scanFrameHeader none (encItems f ++ rest)
        = .ok ((f.coords.length : Int), frameByteLen f, rest)
    ∧ itemsByteLen (encItems f) = frameByteLen f
    ∧ (f.coords.length < 10 → frameByteLen f = 56 + 12 * f.coords.length)
    ∧ (10 ≤ f.coords.length →
        frameByteLen f
          = (compressPayload f.precision f.coords).length + (XTC_HEADER_SIZE + 4)) := by
  refine ⟨scanFrameHeader_encoded f rest none hbox rfl,
    itemsByteLen_encItems f hbox, ?_, ?_⟩
  · intro h
    rw [frameByteLen, if_pos h]
    show (56 : Nat) + 12 * f.coords.length = 56 + 12 * f.coords.length
    rfl
  · intro h
    rw [frameByteLen, if_neg (by omega)]
    show (88 : Nat) + 4 + (compressPayload f.precision f.coords).length
        = (compressPayload f.precision f.coords).length + (88 + 4)
    omega

/-- Concrete one-atom short frame used by witnesses. -/
def frameW2 : Frame := ⟨1, 0, [0, 0, 0, 0, 0, 0, 0, 0, 0], [(0, 0, 0)], 0⟩

/-- C2 witness at a concrete short frame. -/
theorem C2_witness :
    scanFrameHeader none (encItems frameW2 ++ [])
        = .ok ((frameW2.coords.length : Int), frameByteLen frameW2, [])
    ∧ itemsByteLen (encItems frameW2) = frameByteLen frameW2
    ∧ (frameW2.coords.length < 10 → frameByteLen frameW2 = 56 + 12 * frameW2.coords.length)
    ∧ (10 ≤ frameW2.coords.length →
        frameByteLen frameW2
          = (compressPayload frameW2.precision frameW2.coords).length
            + (XTC_HEADER_SIZE + 4)) :=
  C2_scan_length_from_header frameW2 [] rfl

/-- C3: for a well-formed trajectory file of N frames (uniform atom count,
full boxes, positive precision on compressed frames), every frame encodes
successfully, `scanFrames` succeeds and returns exactly N offsets, the
offsets are strictly increasing, and the first offset is 0. -/
theorem C3_scanFrames_complete (frames : List Frame) (n0 : Nat)
    (hwf : ∀ f ∈ frames, FrameWF n0 f) :
    (∀ f ∈ frames, writeFrame f = .ok (encItems f))
    ∧ scanFrames (fileOf frames) = .ok (offsetsOf frames 0)
    ∧ (offsetsOf frames 0).length = frames.length
    ∧ List.Chain' (· < ·) (offsetsOf frames 0)
    ∧ (frames ≠ [] → (offsetsOf frames 0).head? = some 0) := by
  refine ⟨?_, ?_, offsetsOf_length frames 0, offsetsOf_chain frames 0, ?_⟩
  · intro f hf
    obtain ⟨h1, h2, h3⟩ := hwf f hf
    exact writeFrame_eq_encItems f (fun h => h3 (h1 ▸ h))
  · exact scanGo_fileOf frames n0 hwf (fileOf frames).length 0 none le_rfl (Or.inl rfl)
  · intro hne
    cases frames with
    | nil => exact absurd rfl hne
    | cons f rest => rfl

/-- C3 witness: a one-frame file. -/
theorem C3_witness :
    (∀ f ∈ [frameW2], writeFrame f = .ok (encItems f))
    ∧ scanFrames (fileOf [frameW2]) = .ok (offsetsOf [frameW2] 0)
    ∧ (offsetsOf [frameW2] 0).length = ([frameW2] : List Frame).length
    ∧ List.Chain' (· < ·) (offsetsOf [frameW2] 0)
    ∧ (([frameW2] : List Frame) ≠ [] → (offsetsOf [frameW2] 0).head? = some 0) :=
  C3_scanFrames_complete [frameW2] 1 (by
    intro f hf
    rw [List.mem_singleton] at hf
    subst hf
    exact ⟨rfl, rfl, fun h => absurd h (by decide)⟩)

/-- C4: for a file whose last frame declares a compressed-payload byte
length exceeding the bytes remaining, both `scanFrames` and `readFrame`
fail with `TruncatedFrame` — neither returns a result for that frame. -/
theorem C4_truncated_last_frame (frames : List Frame) (n0 : Nat) (stepv : Int)
    (timev : ℚ) (box : List ℚ) (prec : ℚ) (mins maxs : Int × Int × Int) (si : Nat)
    (declared : Nat) (bs : List Nat)
    (hwf : ∀ f ∈ frames, FrameWF n0 f) (hn : 10 ≤ n0)
    (hbox : box.length = DIM * DIM) (hlt : bs.length < declared) :
    scanFrames (fileOf frames
        ++ longFrameRaw n0 stepv timev box prec mins maxs si declared bs)
      = .error .truncatedFrame
    ∧ readFrame n0 (longFrameRaw n0 stepv timev box prec mins maxs si declared bs)
      = .error .truncatedFrame := by
  constructor
  · have hne : longFrameRaw n0 stepv timev box prec mins maxs si declared bs ≠ [] := by
      rw [longFrameRaw_shape]
      exact List.cons_ne_nil _ _
    apply scanFrames_prefix_error frames n0 _ _ hwf hne
    apply scanFrameHeader_truncated _ n0 stepv timev box prec mins maxs si declared bs
      hn hbox hlt
    cases frames with
    | nil => rfl
    | cons a b =>
        show guardAtoms (some (n0 : Int)) (n0 : Int) = .ok ()
        rw [guardAtoms, if_pos rfl]
  · exact readFrame_truncated n0 stepv timev box prec mins maxs si declared bs hn hbox hlt

/-- C4 witness: a single truncated long frame (declared length 1, no payload
bytes). -/
theorem C4_witness :
    scanFrames (fileOf []
        ++ longFrameRaw 10 0 0 [0, 0, 0, 0, 0, 0, 0, 0, 0] 1 (0, 0, 0) (0, 0, 0) 0 1 [])
      = .error .truncatedFrame
    ∧ readFrame 10 (longFrameRaw 10 0 0 [0, 0, 0, 0, 0, 0, 0, 0, 0] 1 (0, 0, 0) (0, 0, 0) 0 1 [])
      = .error .truncatedFrame :=
  C4_truncated_last_frame [] 10 0 0 [0, 0, 0, 0, 0, 0, 0, 0, 0] 1 (0, 0, 0) (0, 0, 0) 0 1 []
    (fun f hf => absurd hf (List.not_mem_nil f)) (by decide) rfl (by decide)

/-- C5: if any later frame declares an atom count different from the first
frame's, `scanFrames` fails with `AtomCountMismatch`, whatever follows. -/
theorem C5_scanFrames_atom_mismatch (frames : List Frame) (g : Frame)
    (suffix : List WireItem) (n0 : Nat)
    (hne : frames ≠ []) (hwf : ∀ f ∈ frames, FrameWF n0 f)
    (hg : g.coords.length ≠ n0) :
    scanFrames (fileOf frames ++ (encItems g ++ suffix)) = .error .atomCountMismatch := by
  have hgne : encItems g ++ suffix ≠ [] := by
    cases hco : encItems g with
    | nil => exact absurd hco (encItems_ne_nil g)
    | cons a b => simp [hco]
  apply scanFrames_prefix_error frames n0 _ _ hwf hgne
  have hif : (if frames.isEmpty then (none : Option Int) else some (n0 : Int))
      = some (n0 : Int) := by
    cases frames with
    | nil => exact absurd rfl hne
    | cons a b => rfl
  rw [hif]
  exact scanFrameHeader_mismatch g suffix (n0 : Int) (fun hc => hg (Int.ofNat_inj.mp hc))

/-- Concrete two-atom short frame used by witnesses. -/
def frameW4 : Frame := ⟨0, 0, [0, 0, 0, 0, 0, 0, 0, 0, 0], [(0, 0, 0), (0, 0, 0)], 0⟩

/-- C5 witness: a one-atom file followed by a two-atom frame. -/
theorem C5_witness :
    scanFrames (fileOf [frameW2] ++ (encItems frameW4 ++ [])) = .error .atomCountMismatch :=
  C5_scanFrames_atom_mismatch [frameW2] frameW4 [] 1 (List.cons_ne_nil frameW2 [])
    (by
      intro f hf
      rw [List.mem_singleton] at hf
      subst hf
      exact ⟨rfl, rfl, fun h => absurd h (by decide)⟩)
    (by decide)

/-- C6: a frame whose leading magic field is not the expected format tag is
rejected by the decoder with `MalformedFrame`; the result does not depend on
anything after the magic field, so no further header field is read. -/
theorem C6_bad_magic (k : Nat) (m : Int) (rest : List WireItem) (hm : ¬ m = xtcMagic) :
    readFrame k (.i32 m :: rest) = .error .malformedFrame := by
  simp only [readFrame, rdI32]
  rw [if_neg hm]

/-- C6 witness at magic value 0. -/
theorem C6_witness : readFrame 0 (.i32 0 :: []) = .error .malformedFrame :=
  C6_bad_magic 0 0 [] (by decide)

/-- C7: the decoder reads both atom-count copies of the header and rejects a
frame whose two copies disagree with `MalformedFrame`, whatever follows the
second copy. -/
theorem C7_dup_atom_count (k : Nat) (n n2 stepv : Int) (timev : ℚ) (box : List ℚ)
    (tail : List WireItem) (hbox : box.length = DIM * DIM) (hne : ¬ n2 = n) :
    readFrame k (.i32 xtcMagic :: .i32 n :: .i32 stepv :: .f32 timev ::
        (box.map WireItem.f32 ++ (.i32 n2 :: tail)))
      = .error .malformedFrame := by
  have hbox9 := rdF32s_of_len (DIM * DIM) box (.i32 n2 :: tail) (by rw [hbox])
  simp only [readFrame, rdI32, rdF32, hbox9, eq_self_iff_true, if_true, ite_true]
  rw [if_neg hne]

/-- C7 witness: copies 0 and 1 disagree. -/
theorem C7_witness :
    readFrame 0 (.i32 xtcMagic :: .i32 0 :: .i32 0 :: .f32 0 ::
        (([0, 0, 0, 0, 0, 0, 0, 0, 0] : List ℚ).map WireItem.f32 ++ (.i32 1 :: [])))
      = .error .malformedFrame :=
  C7_dup_atom_count 0 0 1 0 0 [0, 0, 0, 0, 0, 0, 0, 0, 0] [] rfl (by decide)

/-- C8: encoding is deterministic: the encoded output of `writeFrame` is a
function of exactly the frame fields (atom count and coordinates, step,
time, box, precision), so two calls on identical inputs produce
byte-identical output. -/
theorem C8_writeFrame_deterministic (f g : Frame)
    (h1 : f.step = g.step) (h2 : f.time = g.time) (h3 : f.box = g.box)
    (h4 : f.coords = g.coords) (h5 : f.precision = g.precision) :
    writeFrame f = writeFrame g := by
  have hfg : f = g := by
    cases f
    cases g
    dsimp only at h1 h2 h3 h4 h5
    subst h1
    subst h2
    subst h3
    subst h4
    subst h5
    rfl
  rw [hfg]

/-- C8 witness. -/
theorem C8_witness : writeFrame frameW1 = writeFrame frameW1 :=
  C8_writeFrame_deterministic frameW1 frameW1 rfl rfl rfl rfl rfl

theorem unpackBits_cursor (rbuf : BitBuffer) (w2 : Nat) (res : Nat × BitBuffer)
    (hres : unpackBits rbuf w2 = .ok res) : res.2.cursor = rbuf.cursor + w2 := by
  rw [unpackBits] at hres
  by_cases hc : rbuf.cursor + w2 ≤ 8 * rbuf.bytes.length
  · rw [if_pos hc] at hres
    simp only [Except.ok.injEq] at hres
    rw [← hres]
  · rw [if_neg hc] at hres
    simp at hres

/-- C9: the bit-packing engine contract: for any width up to 32,
`unpackBits` immediately after `packBits` returns the low `width` bits of
the value; `packBits` advances the write cursor by exactly `width` bits and
width 0 is a no-op on a well-formed buffer; a successful `unpackBits`
advances the read cursor by exactly `width` bits and it fails with
`BufferExhausted` whenever the read would pass the available bytes. -/
theorem C9_bit_packing_contract (buf : BitBuffer) (h : BufWF buf) (v w : Nat)
    (hw : w ≤ 32) :
    unpackBits ⟨(packBits buf v w).bytes, buf.cursor⟩ w
        = .ok (v % 2 ^ w, ⟨(packBits buf v w).bytes, buf.cursor + w⟩)
    ∧ (packBits buf v w).cursor = buf.cursor + w
    ∧ packBits buf v 0 = buf
    ∧ (∀ (rbuf : BitBuffer) (w2 : Nat), 8 * rbuf.bytes.length < rbuf.cursor + w2 →
        unpackBits rbuf w2 = .error .bufferExhausted)
    ∧ (∀ (rbuf : BitBuffer) (w2 : Nat) (res : Nat × BitBuffer),
        unpackBits rbuf w2 = .ok res → res.2.cursor = rbuf.cursor + w2) :=
  ⟨unpackBits_packBits buf h v w, packBits_cursor buf v w, packBits_zero_width buf h v,
   fun rbuf w2 h2 => unpackBits_exhausted rbuf w2 h2,
   fun rbuf w2 res hres => unpackBits_cursor rbuf w2 res hres⟩

/-- C9 witness: packing value 5 at width 3 into the empty buffer. -/
theorem C9_witness :
    unpackBits ⟨(packBits emptyBuffer 5 3).bytes, emptyBuffer.cursor⟩ 3
        = .ok (5 % 2 ^ 3, ⟨(packBits emptyBuffer 5 3).bytes, emptyBuffer.cursor + 3⟩)
    ∧ (packBits emptyBuffer 5 3).cursor = emptyBuffer.cursor + 3
    ∧ packBits emptyBuffer 5 0 = emptyBuffer
    ∧ (∀ (rbuf : BitBuffer) (w2 : Nat), 8 * rbuf.bytes.length < rbuf.cursor + w2 →
        unpackBits rbuf w2 = .error .bufferExhausted)
    ∧ (∀ (rbuf : BitBuffer) (w2 : Nat) (res : Nat × BitBuffer),
        unpackBits rbuf w2 = .ok res → res.2.cursor = rbuf.cursor + w2) :=
  C9_bit_packing_contract emptyBuffer bufWF_empty 5 3 (by decide)

/-- C10: with `DIM = 3` the header constants equal the exact byte sums of
the declared wire fields: `XTC_SHORTHEADER_SIZE = 56` is magic, atomCount,
step, time, the 3×3 box and the repeated atomCount; `XTC_HEADER_SIZE = 88`
adds precision, the two integer 3-vector extents and the small-width index,
and excludes the 4-byte compressed-payload-length field, so a long frame's
total length is `XTC_HEADER_SIZE + 4 + payload` bytes. -/
theorem C10_header_size_constants :
    DIM = 3
    ∧ XTC_SHORTHEADER_SIZE = 56
    ∧ XTC_SHORTHEADER_SIZE = 4 + 4 + 4 + 4 + DIM * DIM * 4 + 4
    ∧ XTC_HEADER_SIZE = 88
    ∧ XTC_HEADER_SIZE = 4 + 4 + 4 + 4 + DIM * DIM * 4 + 4 + 4 + DIM * 4 + DIM * 4 + 4
    ∧ (∀ (n : Nat) (stepv : Int) (timev prec : ℚ) (box : List ℚ)
        (mins maxs : Int × Int × Int) (si : Nat) (payload : List Nat),
        box.length = DIM * DIM →
        itemsByteLen (headerItems n stepv timev box
            ++ longTailItems prec mins maxs si payload)
          = XTC_HEADER_SIZE + 4 + payload.length) := by
  refine ⟨rfl, rfl, rfl, rfl, rfl, ?_⟩
  intro n stepv timev prec box mins maxs si payload hbox
  rw [itemsByteLen_append, itemsByteLen_headerItems n stepv timev box hbox,
      itemsByteLen_longTailItems]
  show (56 : Nat) + (88 + 4 + payload.length - 56) = 88 + 4 + payload.length
  omega

/-- C10 witness: the long-frame byte-length identity at concrete fields. -/
theorem C10_witness :
    itemsByteLen (headerItems 10 0 0 [0, 0, 0, 0, 0, 0, 0, 0, 0]
        ++ longTailItems 1 (0, 0, 0) (0, 0, 0) 0 [7])
      = XTC_HEADER_SIZE + 4 + ([7] : List Nat).length :=
  C10_header_size_constants.2.2.2.2.2 10 0 0 1 [0, 0, 0, 0, 0, 0, 0, 0, 0]
    (0, 0, 0) (0, 0, 0) 0 [7] rfl
